import Mathlib

/-!
Verification of the dslab simulation framework core against its specification.

The development shallowly embeds the Rust sources:
* `crates/dslab-faas/src/invoker.rs` (container choice, queueing, dequeue policies),
* `crates/dslab-storage/src/disk.rs` (disk accounting and failure events),
* `crates/dslab-mp/src/mc/pending_events.rs` (model-checker event store),
* `crates/dag/src/resource.rs` (YAML resource loading).
Machine floats (`f64` simulation times) are embedded as rationals; `u64`/`u32`
counters as naturals.  Collaborators whose sources are not part of the
repository snapshot (container manager, function registry, stats collector,
dependency resolver, serde derive semantics) are modelled from the
specification, as marked in their doc comments.
-/

/-! ## Invoker data model (from `invoker.rs` and spec sections 3, 4.C, 4.E) -/

/-- Lifecycle states of a container, from spec section 3 (`ContainerStatus` in
the source). -/
inductive ContainerStatus where
  | deploying
  | idle
  | running
  | terminated
deriving DecidableEq

/-- Modelled from the spec: resource requirements (CPU cores, memory bytes)
attached to containers and applications; the `resources` module is not in the
source snapshot. -/
structure Resources where
  cores : Nat
  memory : Nat
deriving DecidableEq

/-- Modelled from the spec: host-local container (spec section 3); the
`container.rs` module is not in the source snapshot.  Fields are the ones the
invoker reads and writes. -/
structure Container where
  id : Nat
  app_id : Nat
  status : ContainerStatus
  deployment_time : Rat
  last_change : Rat
  resources : Resources
  invocations : List Nat
deriving DecidableEq

/-- Modelled from the spec: immutable application template (spec section 3);
the `function.rs` module is not in the source snapshot. -/
structure Application where
  id : Nat
  cores : Nat
  memory : Nat
  deployment_time : Rat
deriving DecidableEq

/-- Modelled from the spec: per-host container manager state (spec
section 4.C); the `container.rs` module is not in the source snapshot.
Containers are kept in insertion order; `next_id` provides fresh container
ids; free cores and memory gate `try_deploy`. -/
structure ContainerManager where
  containers : List Container
  free_cores : Nat
  free_memory : Nat
  next_id : Nat
deriving DecidableEq

/-- Modelled from the spec: `get_possible_containers(app, include_deploying)`
returns the containers of the matching app in states Idle (plus Deploying when
the flag is set), stably in insertion order (spec section 4.C). -/
def getPossibleContainers (cm : ContainerManager) (app : Application)
    (includeDeploying : Bool) : List Container :=
  cm.containers.filter fun c =>
    decide (c.app_id = app.id ∧
      (c.status = ContainerStatus.idle ∨
        (includeDeploying = true ∧ c.status = ContainerStatus.deploying)))

/-- Modelled from the spec: `get_container(id)` lookup in the container table. -/
def getContainer (cm : ContainerManager) (id : Nat) : Option Container :=
  cm.containers.find? fun c => decide (c.id = id)

/-- Modelled from the spec: `get_container_mut(id)` followed by a mutation is
embedded as an in-place update of the container with the given id. -/
def updateContainer (cm : ContainerManager) (id : Nat) (f : Container → Container) :
    ContainerManager :=
  { cm with containers := cm.containers.map fun c => if c.id = id then f c else c }

/-- Modelled from the spec: `try_deploy(app, now)` succeeds only when the host
has sufficient free cores and memory; on success it reserves the resources,
creates a fresh Deploying container and returns its id together with the
deploy delay, which equals the application deployment time (spec
section 4.C). -/
def tryDeploy (cm : ContainerManager) (app : Application) (time : Rat) :
    Option ((Nat × Rat) × ContainerManager) :=
  if app.cores ≤ cm.free_cores ∧ app.memory ≤ cm.free_memory then
    some ((cm.next_id, app.deployment_time),
      { containers := cm.containers ++
          [{ id := cm.next_id
             app_id := app.id
             status := ContainerStatus.deploying
             deployment_time := app.deployment_time
             last_change := time
             resources := { cores := app.cores, memory := app.memory }
             invocations := [] }]
        free_cores := cm.free_cores - app.cores
        free_memory := cm.free_memory - app.memory
        next_id := cm.next_id + 1 })
  else
    none

/-- Modelled from the spec: `reserve_container(id, invocation_id)` attaches an
invocation id to a Deploying container (spec section 4.C). -/
def reserveContainer (cm : ContainerManager) (id : Nat) (invocationId : Nat) :
    ContainerManager :=
  updateContainer cm id fun c => { c with invocations := c.invocations ++ [invocationId] }

/-- Decision returned by an invoker (`InvokerDecision` in the source). -/
inductive InvokerDecision where
  | Warm (id : Nat)
  | Cold (id : Nat) (delay : Rat)
  | Queued
  | Rejected
deriving DecidableEq

/-- Record of one admitted invocation (`DequeuedInvocation` in the source). -/
structure DequeuedInvocation where
  id : Nat
  container_id : Nat
  delay : Option Rat
deriving DecidableEq

/-- Modelled from the spec: one call made to the stats collector (spec
section 4.E); the `stats.rs` module is not in the source snapshot, so the
collector is embedded as the trace of calls it receives. -/
inductive StatsCall where
  | queueing (appId funcId : Nat) (dt : Rat)
  | coldStart (appId funcId : Nat) (dt : Rat)
  | wasted (dt : Rat) (res : Resources)
deriving DecidableEq

/-- Trace of stats-collector calls, in call order. -/
abbrev Stats := List StatsCall

/-- Modelled from the spec: the function registry maps application ids to
applications; the `function.rs` module is not in the source snapshot. -/
abbrev FunctionRegistry := List Application

/-- Modelled from the spec: `fr.get_app(app_id)`. -/
def getApp (fr : FunctionRegistry) (appId : Nat) : Option Application :=
  fr.find? fun a => decide (a.id = appId)

/-- Queue entry of an invoker (`InvokerQueueItem` in the source); `time` holds
the arrival time of the invocation. -/
structure InvokerQueueItem where
  invocation_id : Nat
  func_id : Nat
  app_id : Nat
  time : Rat
deriving DecidableEq

/-- One user request (spec section 3); fields the invoker reads. -/
structure Invocation where
  id : Nat
  func_id : Nat
  app_id : Nat
  arrival_time : Rat
deriving DecidableEq

/-! ## `try_invoke` (from `invoker.rs`, lines 36-61) -/

/-- Wait of a candidate container: remaining deploy time for a Deploying
container, zero otherwise (the `delay` computation in the `try_invoke` loop). -/
def candidateWait (time : Rat) (c : Container) : Rat :=
  if c.status = ContainerStatus.deploying then
    c.deployment_time + c.last_change - time
  else
    0

/-- Scan of the candidate list in `try_invoke`, threading the `(nearest, wait)`
loop state: a candidate replaces the current best when there is no current best
or its wait is strictly smaller. -/
def scanNearest (time : Rat) : Option Nat × Rat → List Container → Option Nat × Rat
  | acc, [] => acc
  | acc, c :: rest =>
      let delay := candidateWait time c
      scanNearest time (if acc.1 = none ∨ delay < acc.2 then (some c.id, delay) else acc) rest

/-- Embedding of `try_invoke`: scan the possible containers (Deploying
included) for the minimum-wait candidate; for a found candidate return Warm
when the container looked up by its id is Idle and Cold with the recorded wait
otherwise; with no candidate fall back to `try_deploy`, returning Cold with the
deploy delay on success and Rejected on failure.  The `None` result embeds the
panic of the `unwrap` on the container lookup. -/
def tryInvoke (app : Application) (cm : ContainerManager) (time : Rat) :
    Option (InvokerDecision × ContainerManager) :=
  match scanNearest time (none, 0) (getPossibleContainers cm app true) with
  | (some id, wait) =>
      match getContainer cm id with
      | some c =>
          if c.status = ContainerStatus.idle then
            some (InvokerDecision.Warm id, cm)
          else
            some (InvokerDecision.Cold id wait, cm)
      | none => none
  | (none, _) =>
      match tryDeploy cm app time with
      | some ((id, delay), cm') => some (InvokerDecision.Cold id delay, cm')
      | none => some (InvokerDecision.Rejected, cm)

/-! ## Invoker policies (from `invoker.rs`, lines 110-301) -/

/-- Loop body accumulator pass of `NaiveInvoker::dequeue`: the source drains
the queue, pushing rejected items onto `new_queue` and admitted ones onto
`dequeued`; both accumulators grow at the back.  `None` embeds the panics
(absent app, absent container, `try_invoke` returning Queued). -/
def naiveDequeueGo (fr : FunctionRegistry) (time : Rat) :
    List InvokerQueueItem → ContainerManager → Stats →
    List DequeuedInvocation → List InvokerQueueItem →
    Option (List DequeuedInvocation × List InvokerQueueItem × ContainerManager × Stats)
  | [], cm, st, deq, newQ => some (deq, newQ, cm, st)
  | item :: rest, cm, st, deq, newQ =>
      match getApp fr item.app_id with
      | none => none
      | some app =>
          match tryInvoke app cm time with
          | none => none
          | some (InvokerDecision.Warm id, cm₁) =>
              let st₁ := st ++ [StatsCall.queueing item.app_id item.func_id (time - item.time)]
              match getContainer cm₁ id with
              | none => none
              | some c =>
                  let st₂ :=
                    if c.status = ContainerStatus.idle then
                      st₁ ++ [StatsCall.wasted (time - c.last_change) c.resources]
                    else
                      st₁
                  let st₃ := st₂ ++ [StatsCall.coldStart item.app_id item.func_id (time - item.time)]
                  let cm₂ := updateContainer cm₁ id fun c =>
                    { c with
                      last_change := time
                      status := ContainerStatus.running
                      invocations := c.invocations ++ [item.invocation_id] }
                  naiveDequeueGo fr time rest cm₂ st₃
                    (deq ++ [{ id := item.invocation_id, container_id := id, delay := none }]) newQ
          | some (InvokerDecision.Cold id delay, cm₁) =>
              let st₁ := st ++ [StatsCall.queueing item.app_id item.func_id (time - item.time)]
              let cm₂ := reserveContainer cm₁ id item.invocation_id
              let st₂ := st₁ ++
                [StatsCall.coldStart item.app_id item.func_id (time - item.time + delay)]
              naiveDequeueGo fr time rest cm₂ st₂
                (deq ++ [{ id := item.invocation_id, container_id := id, delay := some delay }]) newQ
          | some (InvokerDecision.Rejected, cm₁) =>
              naiveDequeueGo fr time rest cm₁ st deq (newQ ++ [item])
          | some (InvokerDecision.Queued, _) => none

/-- Embedding of `NaiveInvoker::dequeue`: returns the admitted invocations,
the retained queue, and the updated container manager and stats trace. -/
def naiveDequeue (fr : FunctionRegistry) (time : Rat) (queue : List InvokerQueueItem)
    (cm : ContainerManager) (st : Stats) :
    Option (List DequeuedInvocation × List InvokerQueueItem × ContainerManager × Stats) :=
  if queue.isEmpty then
    some ([], queue, cm, st)
  else
    naiveDequeueGo fr time queue cm st [] []

/-- Embedding of `NaiveInvoker::invoke`: queue the invocation and answer
Queued when `try_invoke` rejects it, otherwise answer the decision with the
queue unchanged. -/
def naiveInvoke (inv : Invocation) (fr : FunctionRegistry) (queue : List InvokerQueueItem)
    (cm : ContainerManager) (time : Rat) :
    Option (InvokerDecision × List InvokerQueueItem × ContainerManager) :=
  match getApp fr inv.app_id with
  | none => none
  | some app =>
      match tryInvoke app cm time with
      | none => none
      | some (decision, cm') =>
          if decision = InvokerDecision.Rejected then
            some (InvokerDecision.Queued,
              queue ++ [{ invocation_id := inv.id, func_id := inv.func_id,
                          app_id := inv.app_id, time := inv.arrival_time }], cm')
          else
            some (decision, queue, cm')

/-- Embedding of the `FIFOInvoker::dequeue` loop: repeatedly inspect the front
item; admit and pop it on Warm or Cold; stop, leaving the queue as is, on
Rejected.  `None` embeds the panics. -/
def fifoDequeueGo (fr : FunctionRegistry) (time : Rat) :
    List InvokerQueueItem → ContainerManager → Stats → List DequeuedInvocation →
    Option (List DequeuedInvocation × List InvokerQueueItem × ContainerManager × Stats)
  | [], cm, st, deq => some (deq, [], cm, st)
  | item :: rest, cm, st, deq =>
      match getApp fr item.app_id with
      | none => none
      | some app =>
          match tryInvoke app cm time with
          | none => none
          | some (InvokerDecision.Warm id, cm₁) =>
              let st₁ := st ++ [StatsCall.queueing item.app_id item.func_id (time - item.time)]
              match getContainer cm₁ id with
              | none => none
              | some c =>
                  let st₂ :=
                    if c.status = ContainerStatus.idle then
                      st₁ ++ [StatsCall.wasted (time - c.last_change) c.resources]
                    else
                      st₁
                  let st₃ := st₂ ++ [StatsCall.coldStart item.app_id item.func_id (time - item.time)]
                  let cm₂ := updateContainer cm₁ id fun c =>
                    { c with
                      last_change := time
                      status := ContainerStatus.running
                      invocations := c.invocations ++ [item.invocation_id] }
                  fifoDequeueGo fr time rest cm₂ st₃
                    (deq ++ [{ id := item.invocation_id, container_id := id, delay := none }])
          | some (InvokerDecision.Cold id delay, cm₁) =>
              let st₁ := st ++ [StatsCall.queueing item.app_id item.func_id (time - item.time)]
              let cm₂ := reserveContainer cm₁ id item.invocation_id
              let st₂ := st₁ ++
                [StatsCall.coldStart item.app_id item.func_id (time - item.time + delay)]
              fifoDequeueGo fr time rest cm₂ st₂
                (deq ++ [{ id := item.invocation_id, container_id := id, delay := some delay }])
          | some (InvokerDecision.Rejected, cm₁) => some (deq, item :: rest, cm₁, st)
          | some (InvokerDecision.Queued, _) => none

/-- Embedding of `FIFOInvoker::dequeue`. -/
def fifoDequeue (fr : FunctionRegistry) (time : Rat) (queue : List InvokerQueueItem)
    (cm : ContainerManager) (st : Stats) :
    Option (List DequeuedInvocation × List InvokerQueueItem × ContainerManager × Stats) :=
  fifoDequeueGo fr time queue cm st []

/-- Embedding of `FIFOInvoker::invoke`: identical to the naive one up to the
queue container, which also appends at the back. -/
def fifoInvoke (inv : Invocation) (fr : FunctionRegistry) (queue : List InvokerQueueItem)
    (cm : ContainerManager) (time : Rat) :
    Option (InvokerDecision × List InvokerQueueItem × ContainerManager) :=
  match getApp fr inv.app_id with
  | none => none
  | some app =>
      match tryInvoke app cm time with
      | none => none
      | some (decision, cm') =>
          if decision = InvokerDecision.Rejected then
            some (InvokerDecision.Queued,
              queue ++ [{ invocation_id := inv.id, func_id := inv.func_id,
                          app_id := inv.app_id, time := inv.arrival_time }], cm')
          else
            some (decision, queue, cm')

/-! ## Disk storage model (from `disk.rs`) -/

/-- Describes a disk operation (`DiskActivity` in the source). -/
structure DiskActivity where
  request_id : Nat
  requester : Nat
  size : Nat
deriving DecidableEq

/-- Failure events a disk delivers immediately to the requester
(`DataReadFailed` and `DataWriteFailed` in `events.rs`; the error string is
not modelled). -/
inductive DiskEvent where
  | readFailed (request_id : Nat)
  | writeFailed (request_id : Nat)
deriving DecidableEq

/-- Disk state (`Disk` in the source): capacity and used bytes, the request-id
counter, and the activities admitted into the read and write throughput
models (their timing is not modelled). -/
structure Disk where
  capacity : Nat
  used : Nat
  next_request_id : Nat
  read_activities : List DiskActivity
  write_activities : List DiskActivity
deriving DecidableEq

/-- State produced by `DiskBuilder::build`: zero used space and fresh
counters. -/
def buildDisk (capacity : Nat) : Disk :=
  { capacity := capacity
    used := 0
    next_request_id := 0
    read_activities := []
    write_activities := [] }

/-- Embedding of `Storage::read` for `Disk`: allocate a request id; when the
size exceeds the capacity deliver a `DataReadFailed` event, otherwise admit a
read activity.  Used space is never touched. -/
def diskRead (d : Disk) (size : Nat) (requester : Nat) : Disk × List DiskEvent :=
  let rid := d.next_request_id
  let d₁ := { d with next_request_id := rid + 1 }
  if d.capacity < size then
    (d₁, [DiskEvent.readFailed rid])
  else
    ({ d₁ with read_activities := d₁.read_activities ++
        [{ request_id := rid, requester := requester, size := size }] }, [])

/-- Embedding of `Storage::write` for `Disk`: allocate a request id; when the
available space `capacity - used` is smaller than the size deliver a
`DataWriteFailed` event, otherwise increment used space and admit a write
activity. -/
def diskWrite (d : Disk) (size : Nat) (requester : Nat) : Disk × List DiskEvent :=
  let rid := d.next_request_id
  let d₁ := { d with next_request_id := rid + 1 }
  let available := d.capacity - d.used
  if available < size then
    (d₁, [DiskEvent.writeFailed rid])
  else
    ({ d₁ with
        used := d₁.used + size
        write_activities := d₁.write_activities ++
          [{ request_id := rid, requester := requester, size := size }] }, [])

/-- Embedding of `Storage::mark_free` for `Disk`: succeed and decrement used
space when the size is at most the used space, otherwise return an error. -/
def diskMarkFree (d : Disk) (size : Nat) : Except String Disk :=
  if size ≤ d.used then
    Except.ok { d with used := d.used - size }
  else
    Except.error "invalid size"

/-- Embedding of `Storage::used_space`. -/
def usedSpace (d : Disk) : Nat := d.used

/-- Embedding of `Storage::free_space`. -/
def freeSpace (d : Disk) : Nat := d.capacity - d.used

/-- State after a `write(s)` call, discarding the emitted events (requester 0). -/
def writeRun (d : Disk) (s : Nat) : Disk := (diskWrite d s 0).1

/-- State after a `mark_free(s)` call; an error leaves the state unchanged. -/
def markFreeRun (d : Disk) (s : Nat) : Disk :=
  match diskMarkFree d s with
  | Except.ok d' => d'
  | Except.error _ => d

/-- State after one `write(s)`, `mark_free(s)` pair. -/
def pairStep (d : Disk) (s : Nat) : Disk := markFreeRun (writeRun d s) s

/-- State after a sequence of `write(s)`, `mark_free(s)` pairs starting from a
freshly built disk. -/
def runPairs (capacity : Nat) (sizes : List Nat) : Disk :=
  sizes.foldl pairStep (buildDisk capacity)

/-- Every intermediate state reached while running the pairs (after each
individual `write` and each individual `mark_free`). -/
def pairStatesGo : Disk → List Nat → List Disk
  | _, [] => []
  | d, s :: rest =>
      let d₁ := writeRun d s
      let d₂ := markFreeRun d₁ s
      d₁ :: d₂ :: pairStatesGo d₂ rest

/-- All states observed while running a sequence of pairs, the initial one
included. -/
def statesOf (capacity : Nat) (sizes : List Nat) : List Disk :=
  buildDisk capacity :: pairStatesGo (buildDisk capacity) sizes

/-! ## Model-checker pending events (from `pending_events.rs`) -/

/-- Events handled by the model checker (spec section 3; `events.rs` of the
model-checker crate is not in the source snapshot, so the variants carry the
fields named by the spec).  Times are embedded as rationals. -/
inductive McEvent where
  | MessageReceived (msg src dest : String)
  | TimerFired (proc timer : String) (timer_delay : Rat)
  | MessageDropped (msg src dest : String)
  | TimerCancelled (proc timer : String)
deriving DecidableEq

/-- Lookup in an association list, first entry wins. -/
def assocLookup {κ α : Type} [DecidableEq κ] (l : List (κ × α)) (k : κ) : Option α :=
  (l.find? fun e => decide (e.1 = k)).map fun e => e.2

/-- Replacement (or insertion at the back) in an association list. -/
def assocSet {κ α : Type} [DecidableEq κ] (l : List (κ × α)) (k : κ) (v : α) :
    List (κ × α) :=
  if (l.find? fun e => decide (e.1 = k)).isSome then
    l.map fun e => if e.1 = k then (k, v) else e
  else
    l ++ [(k, v)]

/-- Modelled from the spec: dependency-resolver state (spec section 4.G); the
`dependency.rs` module is not in the source snapshot.  For each (src, dest)
pair a FIFO of (message, id); for each process an insertion-ordered list of
(delay, id). -/
structure DependencyResolver where
  messages : List ((String × String) × List (String × Nat))
  timers : List (String × List (Rat × Nat))
deriving DecidableEq

/-- Empty resolver. -/
def emptyResolver : DependencyResolver := { messages := [], timers := [] }

/-- Modelled from the spec: `add_message(src, dest, msg, id)` pushes to the
pair FIFO and reports whether the new entry is at its head. -/
def addMessage (r : DependencyResolver) (src dest msg : String) (id : Nat) :
    Bool × DependencyResolver :=
  let key := (src, dest)
  let q := (assocLookup r.messages key).getD []
  (q.isEmpty, { r with messages := assocSet r.messages key (q ++ [(msg, id)]) })

/-- Modelled from the spec: `remove_message(msg, src, dest)` pops the head of
the pair FIFO and returns the id of the new head, when any. -/
def removeMessage (r : DependencyResolver) (_msg src dest : String) :
    Option Nat × DependencyResolver :=
  let key := (src, dest)
  match (assocLookup r.messages key).getD [] with
  | [] => (none, r)
  | _ :: rest =>
      ((rest.head?.map fun e => e.2), { r with messages := assocSet r.messages key rest })

/-- First minimum of a timer list by delay (insertion order breaks ties). -/
def timerMin : List (Rat × Nat) → Option (Rat × Nat)
  | [] => none
  | e :: rest =>
      match timerMin rest with
      | none => some e
      | some m => if e.1 ≤ m.1 then some e else some m

/-- Modelled from the spec: `add_timer(proc, delay, id)` inserts the timer and
reports whether it is now the minimum for the process; with insertion order as
tie-break the new timer is the minimum exactly when its delay is strictly
below every existing delay of the process. -/
def addTimer (r : DependencyResolver) (proc : String) (delay : Rat) (id : Nat) :
    Bool × DependencyResolver :=
  let l := (assocLookup r.timers proc).getD []
  (l.all fun e => decide (delay < e.1),
    { r with timers := assocSet r.timers proc (l ++ [(delay, id)]) })

/-- Modelled from the spec: `remove_timer(id)` removes the timer with the
given id and returns the set of newly unblocked ids, simplified (as the spec
allows) to the new minimum of the affected process when the removed timer was
its minimum. -/
def removeTimer (r : DependencyResolver) (id : Nat) : Finset Nat × DependencyResolver :=
  let res := r.timers.foldl
    (fun acc entry =>
      if (entry.2.find? fun e => decide (e.2 = id)).isSome then
        let oldMin := timerMin entry.2
        let l' := entry.2.filter fun e => decide (e.2 ≠ id)
        let unb : Finset Nat :=
          if (oldMin.map fun e => e.2) = some id then
            match timerMin l' with
            | some m => {m.2}
            | none => ∅
          else ∅
        (acc.1 ∪ unb, acc.2 ++ [(entry.1, l')])
      else
        (acc.1, acc.2 ++ [entry]))
    ((∅ : Finset Nat), ([] : List (String × List (Rat × Nat))))
  (res.1, { r with timers := res.2 })

/-- State of the pending-events store (`PendingEvents` in the source).  The
`BTreeMap`s are embedded as association lists with unique keys and the
`BTreeSet`s as finite sets of ids. -/
structure PendingEvents where
  events : List (Nat × McEvent)
  timer_mapping : List ((String × String) × Nat)
  available_events : Finset Nat
  directives : Finset Nat
  resolver : DependencyResolver
  id_counter : Nat
deriving DecidableEq

/-- Embedding of `PendingEvents::new`. -/
def emptyPendingEvents : PendingEvents :=
  { events := []
    timer_mapping := []
    available_events := ∅
    directives := ∅
    resolver := emptyResolver
    id_counter := 0 }

/-- Embedding of `PendingEvents::push_with_fixed_id`: dispatch on the event
variant, updating the resolver, the timer mapping, the available set and the
directives, then store the event.  `None` embeds the assertion failure on an
already-present id. -/
def pushWithFixedId (s : PendingEvents) (event : McEvent) (id : Nat) :
    Option PendingEvents :=
  if (assocLookup s.events id).isSome then
    none
  else
    some <|
      match event with
      | McEvent.MessageReceived msg src dest =>
          let (avail, r') := addMessage s.resolver src dest msg id
          { s with
            resolver := r'
            available_events :=
              if avail then s.available_events ∪ {id} else s.available_events
            events := s.events ++ [(id, event)] }
      | McEvent.TimerFired proc timer delay =>
          let (avail, r') := addTimer s.resolver proc delay id
          { s with
            timer_mapping := assocSet s.timer_mapping (proc, timer) id
            resolver := r'
            available_events :=
              if avail then s.available_events ∪ {id} else s.available_events
            events := s.events ++ [(id, event)] }
      | McEvent.TimerCancelled _ _ =>
          { s with
            directives := s.directives ∪ {id}
            events := s.events ++ [(id, event)] }
      | McEvent.MessageDropped _ _ _ =>
          { s with
            directives := s.directives ∪ {id}
            events := s.events ++ [(id, event)] }

/-- Embedding of `PendingEvents::push`: allocate the next id from the counter
and store the event under it. -/
def pushEvent (s : PendingEvents) (event : McEvent) : Option (PendingEvents × Nat) :=
  let id := s.id_counter
  (pushWithFixedId { s with id_counter := id + 1 } event id).map fun s' => (s', id)

/-- Embedding of `PendingEvents::available_events`: when any directive is
pending, a singleton with the smallest directive id; otherwise the stored
available set. -/
def availableEvents (s : PendingEvents) : Finset Nat :=
  if h : s.directives.Nonempty then {s.directives.min' h} else s.available_events

/-- Embedding of `PendingEvents::available_events_num`: one when any directive
is pending, otherwise the cardinality of the stored available set. -/
def availableEventsNum (s : PendingEvents) : Nat :=
  if s.directives.Nonempty then 1 else s.available_events.card

/-- Embedding of `PendingEvents::pop`: remove the event from the store and
both id sets, then feed the resolver, which may unblock further ids.  The
timer mapping is not touched.  `None` embeds the `unwrap` panic on an absent
id. -/
def popEvent (s : PendingEvents) (id : Nat) : Option (McEvent × PendingEvents) :=
  match assocLookup s.events id with
  | none => none
  | some event =>
      let events' := s.events.filter fun e => decide (e.1 ≠ id)
      let directives' := s.directives.erase id
      let avail' := s.available_events.erase id
      match event with
      | McEvent.TimerFired _ _ _ =>
          let (unblocked, r') := removeTimer s.resolver id
          some (event,
            { s with
              events := events'
              directives := directives'
              available_events := avail' ∪ unblocked
              resolver := r' })
      | McEvent.MessageReceived msg src dest =>
          let (unblocked, r') := removeMessage s.resolver msg src dest
          some (event,
            { s with
              events := events'
              directives := directives'
              available_events :=
                match unblocked with
                | some u => avail' ∪ {u}
                | none => avail'
              resolver := r' })
      | _ =>
          some (event,
            { s with
              events := events'
              directives := directives'
              available_events := avail' })

/-- Embedding of `PendingEvents::cancel_timer`: remove the (proc, timer) entry
from the timer mapping and, when one was present, pop the recorded id.  `None`
embeds the panic of that pop on an absent event. -/
def cancelTimer (s : PendingEvents) (proc timer : String) : Option PendingEvents :=
  let key := (proc, timer)
  let found := assocLookup s.timer_mapping key
  let s₁ := { s with timer_mapping := s.timer_mapping.filter fun e => decide (e.1 ≠ key) }
  match found with
  | none => some s₁
  | some id => (popEvent s₁ id).map fun r => r.2

/-! ## YAML resource loading (from `resource.rs`) -/

/-- Scalar YAML values occurring in resource descriptions. -/
inductive YamlValue where
  | str (s : String)
  | num (n : Nat)
deriving DecidableEq

/-- Resource description record (`YamlResource` in the source): fields `name`,
`speed` (u64), `cores` (u32), `memory` (u64). -/
structure YamlResource where
  name : String
  speed : Nat
  cores : Nat
  memory : Nat
deriving DecidableEq

/-- Field-by-field deserialization loop of the derived serde `Deserialize`
implementation for `YamlResource` in the source.  The derive carries no
`deny_unknown_fields` attribute, so by the serde default an unknown key is
skipped; a known key is recorded once (a duplicate is an error, as is a value
of the wrong type or out of the integer range); at the end every field must
have been seen, a missing one being an error. -/
def deserializeFieldsGo : List (String × YamlValue) → Option String → Option Nat →
    Option Nat → Option Nat → Except String YamlResource
  | [], nameF, speedF, coresF, memoryF =>
      match nameF, speedF, coresF, memoryF with
      | some n, some s, some c, some m =>
          Except.ok { name := n, speed := s, cores := c, memory := m }
      | none, _, _, _ => Except.error "missing field name"
      | _, none, _, _ => Except.error "missing field speed"
      | _, _, none, _ => Except.error "missing field cores"
      | _, _, _, none => Except.error "missing field memory"
  | (k, v) :: rest, nameF, speedF, coresF, memoryF =>
      if k = "name" then
        match nameF with
        | some _ => Except.error "duplicate field name"
        | none =>
            match v with
            | YamlValue.str s => deserializeFieldsGo rest (some s) speedF coresF memoryF
            | _ => Except.error "invalid type for name"
      else if k = "speed" then
        match speedF with
        | some _ => Except.error "duplicate field speed"
        | none =>
            match v with
            | YamlValue.num n =>
                if n < 2 ^ 64 then
                  deserializeFieldsGo rest nameF (some n) coresF memoryF
                else
                  Except.error "speed out of range for u64"
            | _ => Except.error "invalid type for speed"
      else if k = "cores" then
        match coresF with
        | some _ => Except.error "duplicate field cores"
        | none =>
            match v with
            | YamlValue.num n =>
                if n < 2 ^ 32 then
                  deserializeFieldsGo rest nameF speedF (some n) memoryF
                else
                  Except.error "cores out of range for u32"
            | _ => Except.error "invalid type for cores"
      else if k = "memory" then
        match memoryF with
        | some _ => Except.error "duplicate field memory"
        | none =>
            match v with
            | YamlValue.num n =>
                if n < 2 ^ 64 then
                  deserializeFieldsGo rest nameF speedF coresF (some n)
                else
                  Except.error "memory out of range for u64"
            | _ => Except.error "invalid type for memory"
      else
        deserializeFieldsGo rest nameF speedF coresF memoryF

/-- Deserialization of one resource item, a YAML mapping given as a key-value
list. -/
def deserializeYamlResource (fields : List (String × YamlValue)) :
    Except String YamlResource :=
  deserializeFieldsGo fields none none none none

/-- Embedding of the parsing part of `load_resources`: deserialize every item
of the top-level `resources` list; any error is fatal (the source unwraps it
with `expect`).  The construction of simulation handlers from the parsed
records is outside the model. -/
def loadResources (items : List (List (String × YamlValue))) :
    Except String (List YamlResource) :=
  match items with
  | [] => Except.ok []
  | item :: rest =>
      match deserializeYamlResource item with
      | Except.error e => Except.error e
      | Except.ok r =>
          match loadResources rest with
          | Except.error e => Except.error e
          | Except.ok rs => Except.ok (r :: rs)

/-! ## Theorems -/

/-- Claim C4: for every PendingEvents state, if the set of directives is
non-empty then `available_events()` returns exactly the one-element set holding
the smallest directive id and `available_events_num()` returns 1; otherwise
`available_events()` returns the current available set and
`available_events_num()` its cardinality; in all cases
`available_events_num()` equals the size of `available_events()`. -/
theorem c4_available_events_directives (s : PendingEvents) :
    (∀ h : s.directives.Nonempty,
        availableEvents s = {s.directives.min' h} ∧ availableEventsNum s = 1) ∧
    (s.directives = ∅ →
        availableEvents s = s.available_events ∧
        availableEventsNum s = s.available_events.card) ∧
    availableEventsNum s = (availableEvents s).card := by
  unfold availableEvents availableEventsNum
  refine ⟨fun h => ?_, fun h => ?_, ?_⟩
  · rw [dif_pos h, if_pos h]
    exact ⟨rfl, rfl⟩
  · have h' : ¬s.directives.Nonempty := by simp [h]
    rw [dif_neg h', if_neg h']
    exact ⟨rfl, rfl⟩
  · by_cases h : s.directives.Nonempty
    · rw [dif_pos h, if_pos h, Finset.card_singleton]
    · rw [dif_neg h, if_neg h]

/-- Concrete store used to witness claim C4: two pending directives. -/
def c4state : PendingEvents :=
  { emptyPendingEvents with directives := {3, 5}, available_events := {9} }

/-- Witness for claim C4 at a concrete state with directives {3, 5}. -/
theorem c4_witness :
    availableEvents c4state = {3} ∧ availableEventsNum c4state = 1 := by
  have h : c4state.directives.Nonempty := by decide
  have hmain := (c4_available_events_directives c4state).1 h
  refine ⟨?_, hmain.2⟩
  rw [hmain.1]
  have h3 : c4state.directives.min' h = 3 :=
    le_antisymm (Finset.min'_le _ 3 (by decide)) (Finset.le_min' _ _ _ (by decide))
  rw [h3]

/-- Store holding one pending TimerFired event, used for claim C10. -/
def c10pushed : PendingEvents :=
  ((pushEvent emptyPendingEvents (McEvent.TimerFired "p" "t" 1)).map fun r => r.1).getD
    emptyPendingEvents

/-- Store after popping the TimerFired event of `c10pushed` by its id. -/
def c10popped : PendingEvents :=
  ((popEvent c10pushed 0).map fun r => r.2).getD emptyPendingEvents

/-- Claim C10: popping an event via `pop` never removes entries from
`timer_mapping`; consequently, in a state where a TimerFired was pushed and
then removed via `pop(id)`, the stale (proc, timer) entry survives and a
subsequent `cancel_timer(proc, timer)` panics (embedded as `none`) on the
absent event instead of being a no-op. -/
theorem c10_pop_keeps_timer_mapping :
    (∀ (s : PendingEvents) (id : Nat) (ev : McEvent) (s' : PendingEvents),
        popEvent s id = some (ev, s') → s'.timer_mapping = s.timer_mapping) ∧
    pushEvent emptyPendingEvents (McEvent.TimerFired "p" "t" 1) = some (c10pushed, 0) ∧
    popEvent c10pushed 0 = some (McEvent.TimerFired "p" "t" 1, c10popped) ∧
    assocLookup c10popped.timer_mapping ("p", "t") = some 0 ∧
    assocLookup c10popped.events 0 = none ∧
    cancelTimer c10popped "p" "t" = none := by
  refine ⟨?_, by decide, by decide, by decide, by decide, by decide⟩
  intro s id ev s' h
  unfold popEvent at h
  cases hev : assocLookup s.events id with
  | none => rw [hev] at h; exact absurd h (by simp)
  | some e =>
      rw [hev] at h
      cases e <;> simp only [Option.some.injEq, Prod.mk.injEq] at h <;>
        rw [← h.2]

/-- Witness for claim C10: the general conjunct applied at the concrete pop. -/
theorem c10_witness : c10popped.timer_mapping = c10pushed.timer_mapping :=
  c10_pop_keeps_timer_mapping.1 c10pushed 0 (McEvent.TimerFired "p" "t" 1) c10popped
    (by decide)

/-- Capacity is never changed by a write. -/
theorem writeRun_capacity (d : Disk) (s : Nat) : (writeRun d s).capacity = d.capacity := by
  simp only [writeRun, diskWrite]
  split <;> rfl

/-- Capacity is never changed by a mark_free. -/
theorem markFreeRun_capacity (d : Disk) (s : Nat) :
    (markFreeRun d s).capacity = d.capacity := by
  simp only [markFreeRun, diskMarkFree]
  split_ifs <;> rfl

/-- Used space after a write: unchanged on the failure path, incremented by
the size otherwise. -/
theorem writeRun_used (d : Disk) (s : Nat) :
    (writeRun d s).used = if d.capacity - d.used < s then d.used else d.used + s := by
  simp only [writeRun, diskWrite]
  split_ifs <;> rfl

/-- Used space after a mark_free: decremented on success, unchanged on the
error path. -/
theorem markFreeRun_used (d : Disk) (s : Nat) :
    (markFreeRun d s).used = if s ≤ d.used then d.used - s else d.used := by
  simp only [markFreeRun, diskMarkFree]
  split_ifs <;> rfl

/-- One write/mark_free pair brings the used counter from zero back to zero. -/
theorem pairStep_used_zero (d : Disk) (s : Nat) (h : d.used = 0) :
    (pairStep d s).used = 0 := by
  unfold pairStep
  rw [markFreeRun_used, writeRun_used, h]
  split_ifs <;> omega

/-- A write keeps the used counter within the capacity. -/
theorem writeRun_used_le (d : Disk) (s : Nat) (h : d.used ≤ d.capacity) :
    (writeRun d s).used ≤ d.capacity := by
  rw [writeRun_used]
  split_ifs with hc <;> omega

/-- Invariant of the pair sequence: the final used counter is zero and every
intermediate state respects the capacity bound. -/
theorem c5_go (sizes : List Nat) : ∀ d : Disk, d.used = 0 →
    (sizes.foldl pairStep d).used = 0 ∧
    ∀ x ∈ pairStatesGo d sizes, x.used ≤ x.capacity := by
  induction sizes with
  | nil => exact fun d h => ⟨h, by simp [pairStatesGo]⟩
  | cons s rest ih =>
      intro d h
      have hz : (pairStep d s).used = 0 := pairStep_used_zero d s h
      obtain ⟨h1, h2⟩ := ih (pairStep d s) hz
      refine ⟨by simpa using h1, ?_⟩
      intro x hx
      simp only [pairStatesGo, List.mem_cons] at hx
      rcases hx with hx | hx | hx
      · subst hx
        have hw : (writeRun d s).used ≤ d.capacity :=
          writeRun_used_le d s (by omega)
        rw [writeRun_capacity]
        exact hw
      · subst hx
        have : (markFreeRun (writeRun d s) s) = pairStep d s := rfl
        rw [this, hz]
        exact Nat.zero_le _
      · exact h2 x hx

/-- Claim C5: starting from a freshly built disk (used = 0), any sequence of
write(s)/mark_free(s) pairs brings `used_space()` back to its initial value,
and `used_space() + free_space() = capacity()` holds in every state reached
along the way. -/
theorem c5_disk_accounting (cap : Nat) (sizes : List Nat) :
    usedSpace (runPairs cap sizes) = usedSpace (buildDisk cap) ∧
    ∀ d ∈ statesOf cap sizes, usedSpace d + freeSpace d = d.capacity := by
  obtain ⟨h1, h2⟩ := c5_go sizes (buildDisk cap) rfl
  refine ⟨by simpa [runPairs, buildDisk, usedSpace] using h1, ?_⟩
  intro d hd
  simp only [statesOf, List.mem_cons] at hd
  have hle : d.used ≤ d.capacity := by
    rcases hd with hd | hd
    · subst hd; simp [buildDisk]
    · exact h2 d hd
  unfold usedSpace freeSpace
  omega

/-- Witness for claim C5 with capacity 10 and pair sizes [4, 20] (the second
write fails for lack of space), checking the invariant at the mid-pair state
after the first write. -/
theorem c5_witness :
    usedSpace (runPairs 10 [4, 20]) = usedSpace (buildDisk 10) ∧
    usedSpace (writeRun (buildDisk 10) 4) + freeSpace (writeRun (buildDisk 10) 4) =
      (writeRun (buildDisk 10) 4).capacity :=
  ⟨(c5_disk_accounting 10 [4, 20]).1,
    (c5_disk_accounting 10 [4, 20]).2 (writeRun (buildDisk 10) 4) (by decide)⟩

/-- Claim C6: a read delivers `DataReadFailed` exactly when the size exceeds
the capacity, a write delivers `DataWriteFailed` exactly when the size exceeds
the free space, and `mark_free` errors exactly when the size exceeds the used
space; the failure paths leave the used counter unchanged, a successful write
adds the size to it and a successful mark_free subtracts the size from it. -/
theorem c6_disk_failure_semantics (d : Disk) (size requester : Nat) :
    ((diskRead d size requester).2 = [DiskEvent.readFailed d.next_request_id] ↔
      d.capacity < size) ∧
    (diskRead d size requester).1.used = d.used ∧
    ((diskWrite d size requester).2 = [DiskEvent.writeFailed d.next_request_id] ↔
      freeSpace d < size) ∧
    (diskWrite d size requester).1.used =
      (if freeSpace d < size then d.used else d.used + size) ∧
    ((∃ e, diskMarkFree d size = Except.error e) ↔ d.used < size) ∧
    (∀ d', diskMarkFree d size = Except.ok d' →
      d'.used = d.used - size ∧ d'.used + size = d.used) := by
  refine ⟨?_, ?_, ?_, ?_, ?_, ?_⟩
  · simp only [diskRead]
    split_ifs with h <;> simp [h]
  · simp only [diskRead]
    split_ifs <;> rfl
  · simp only [diskWrite, freeSpace]
    split_ifs with h <;> simp [h]
  · simp only [diskWrite, freeSpace]
    split_ifs <;> rfl
  · simp only [diskMarkFree]
    split_ifs with h
    · constructor
      · rintro ⟨e, he⟩
        cases he
      · intro hlt
        omega
    · exact ⟨fun _ => by omega, fun _ => ⟨_, rfl⟩⟩
  · intro d' hd'
    simp only [diskMarkFree] at hd'
    by_cases h : size ≤ d.used
    · rw [if_pos h] at hd'
      injection hd' with h2
      rw [← h2]
      exact ⟨rfl, by simp only; omega⟩
    · rw [if_neg h] at hd'
      cases hd'

/-- Concrete disk used to witness claim C6. -/
def c6disk : Disk :=
  { capacity := 10, used := 7, next_request_id := 0
    read_activities := [], write_activities := [] }

/-- Witness for claim C6: a successful mark_free of 3 bytes on a disk with 7
used bytes leaves 4 used bytes. -/
theorem c6_witness :
    ({ c6disk with used := 4 } : Disk).used = c6disk.used - 3 ∧
    ({ c6disk with used := 4 } : Disk).used + 3 = c6disk.used :=
  (c6_disk_failure_semantics c6disk 3 0).2.2.2.2.2 { c6disk with used := 4 } rfl

/-- Unknown keys are skipped by the derived deserializer: appending an entry
with an unknown key never changes the result. -/
theorem deserializeGo_skip_unknown (k : String) (v : YamlValue)
    (hk1 : k ≠ "name") (hk2 : k ≠ "speed") (hk3 : k ≠ "cores") (hk4 : k ≠ "memory") :
    ∀ (fields : List (String × YamlValue)) (nF : Option String) (sF cF mF : Option Nat),
      deserializeFieldsGo (fields ++ [(k, v)]) nF sF cF mF =
        deserializeFieldsGo fields nF sF cF mF := by
  intro fields
  induction fields with
  | nil =>
      intro nF sF cF mF
      simp [deserializeFieldsGo, hk1, hk2, hk3, hk4]
  | cons p rest ih =>
      intro nF sF cF mF
      obtain ⟨k', v'⟩ := p
      simp only [List.cons_append, deserializeFieldsGo]
      split_ifs with h1 h2 h3 h4
      · cases nF with
        | some s => rfl
        | none =>
            cases v' with
            | str s => exact ih _ _ _ _
            | num n => rfl
      · cases sF with
        | some s => rfl
        | none =>
            cases v' with
            | str s => rfl
            | num n =>
                dsimp only
                split_ifs with hb
                · exact ih _ _ _ _
                · rfl
      · cases cF with
        | some s => rfl
        | none =>
            cases v' with
            | str s => rfl
            | num n =>
                dsimp only
                split_ifs with hb
                · exact ih _ _ _ _
                · rfl
      · cases mF with
        | some s => rfl
        | none =>
            cases v' with
            | str s => rfl
            | num n =>
                dsimp only
                split_ifs with hb
                · exact ih _ _ _ _
                · rfl
      · exact ih _ _ _ _

/-- Weakening of a key-membership witness to a longer list. -/
theorem keyMem_cons {key : String} {p : String × YamlValue}
    {rest : List (String × YamlValue)} :
    (∃ v, (key, v) ∈ rest) → ∃ v, (key, v) ∈ p :: rest :=
  fun ⟨v, hv⟩ => ⟨v, List.mem_cons_of_mem _ hv⟩

/-- Transport of the four field-presence disjunctions across a cons cell. -/
theorem fieldsPresent_cons {p : String × YamlValue} {rest : List (String × YamlValue)}
    {nF : Option String} {sF cF mF : Option Nat}
    (h : (nF.isSome = true ∨ ∃ v, ("name", v) ∈ rest) ∧
         (sF.isSome = true ∨ ∃ v, ("speed", v) ∈ rest) ∧
         (cF.isSome = true ∨ ∃ v, ("cores", v) ∈ rest) ∧
         (mF.isSome = true ∨ ∃ v, ("memory", v) ∈ rest)) :
    (nF.isSome = true ∨ ∃ v, ("name", v) ∈ p :: rest) ∧
    (sF.isSome = true ∨ ∃ v, ("speed", v) ∈ p :: rest) ∧
    (cF.isSome = true ∨ ∃ v, ("cores", v) ∈ p :: rest) ∧
    (mF.isSome = true ∨ ∃ v, ("memory", v) ∈ p :: rest) :=
  ⟨h.1.imp id keyMem_cons, h.2.1.imp id keyMem_cons,
   h.2.2.1.imp id keyMem_cons, h.2.2.2.imp id keyMem_cons⟩

/-- Success of the deserializer requires every required field to have been
supplied, either in the accumulator or in the remaining entries. -/
theorem deserializeGo_ok_fields : ∀ (fields : List (String × YamlValue))
    (nF : Option String) (sF cF mF : Option Nat) (r : YamlResource),
    deserializeFieldsGo fields nF sF cF mF = Except.ok r →
    (nF.isSome = true ∨ ∃ v, ("name", v) ∈ fields) ∧
    (sF.isSome = true ∨ ∃ v, ("speed", v) ∈ fields) ∧
    (cF.isSome = true ∨ ∃ v, ("cores", v) ∈ fields) ∧
    (mF.isSome = true ∨ ∃ v, ("memory", v) ∈ fields) := by
  intro fields
  induction fields with
  | nil =>
      intro nF sF cF mF r h
      simp only [deserializeFieldsGo] at h
      cases nF <;> cases sF <;> cases cF <;> cases mF <;> cases h
      simp
  | cons p rest ih =>
      intro nF sF cF mF r h
      obtain ⟨k', v'⟩ := p
      simp only [deserializeFieldsGo] at h
      split_ifs at h with h1 h2 h3 h4
      · cases nF with
        | some s => cases h
        | none =>
            cases v' with
            | str s =>
                refine ⟨Or.inr ⟨YamlValue.str s, by rw [h1]; exact List.mem_cons_self _ _⟩,
                  ?_, ?_, ?_⟩
                all_goals
                  first
                  | exact (fieldsPresent_cons (ih _ _ _ _ _ h)).2.1
                  | exact (fieldsPresent_cons (ih _ _ _ _ _ h)).2.2.1
                  | exact (fieldsPresent_cons (ih _ _ _ _ _ h)).2.2.2
            | num n => cases h
      · cases sF with
        | some s => cases h
        | none =>
            cases v' with
            | str s => cases h
            | num n =>
                dsimp only at h
                by_cases hb : n < 2 ^ 64
                · rw [if_pos hb] at h
                  refine ⟨(fieldsPresent_cons (ih _ _ _ _ _ h)).1,
                    Or.inr ⟨YamlValue.num n, by rw [h2]; exact List.mem_cons_self _ _⟩,
                    (fieldsPresent_cons (ih _ _ _ _ _ h)).2.2.1,
                    (fieldsPresent_cons (ih _ _ _ _ _ h)).2.2.2⟩
                · rw [if_neg hb] at h
                  cases h
      · cases cF with
        | some s => cases h
        | none =>
            cases v' with
            | str s => cases h
            | num n =>
                dsimp only at h
                by_cases hb : n < 2 ^ 32
                · rw [if_pos hb] at h
                  refine ⟨(fieldsPresent_cons (ih _ _ _ _ _ h)).1,
                    (fieldsPresent_cons (ih _ _ _ _ _ h)).2.1,
                    Or.inr ⟨YamlValue.num n, by rw [h3]; exact List.mem_cons_self _ _⟩,
                    (fieldsPresent_cons (ih _ _ _ _ _ h)).2.2.2⟩
                · rw [if_neg hb] at h
                  cases h
      · cases mF with
        | some s => cases h
        | none =>
            cases v' with
            | str s => cases h
            | num n =>
                dsimp only at h
                by_cases hb : n < 2 ^ 64
                · rw [if_pos hb] at h
                  refine ⟨(fieldsPresent_cons (ih _ _ _ _ _ h)).1,
                    (fieldsPresent_cons (ih _ _ _ _ _ h)).2.1,
                    (fieldsPresent_cons (ih _ _ _ _ _ h)).2.2.1,
                    Or.inr ⟨YamlValue.num n, by rw [h4]; exact List.mem_cons_self _ _⟩⟩
                · rw [if_neg hb] at h
                  cases h
      · exact fieldsPresent_cons (ih _ _ _ _ _ h)

/-- Success of `loadResources` requires every item to deserialize. -/
theorem loadResources_ok_all : ∀ (items : List (List (String × YamlValue)))
    (rs : List YamlResource), loadResources items = Except.ok rs →
    ∀ item ∈ items, ∃ r, deserializeYamlResource item = Except.ok r := by
  intro items
  induction items with
  | nil => intro rs _ item hitem; cases hitem
  | cons it rest ih =>
      intro rs h item hitem
      simp only [loadResources] at h
      cases hit : deserializeYamlResource it with
      | error e => rw [hit] at h; cases h
      | ok r =>
          rw [hit] at h
          cases hrest : loadResources rest with
          | error e => rw [hrest] at h; cases h
          | ok rs' =>
              rcases List.mem_cons.mp hitem with hi | hi
              · exact ⟨r, hi ▸ hit⟩
              · exact ih rs' hrest item hi

/-- Complete resource item with all four required fields. -/
def c9good : List (String × YamlValue) :=
  [("name", YamlValue.str "r"), ("speed", YamlValue.num 1),
   ("cores", YamlValue.num 2), ("memory", YamlValue.num 3)]

/-- Resource item with an extra unknown field `color`. -/
def c9item : List (String × YamlValue) := c9good ++ [("color", YamlValue.str "red")]

/-- Counterexample to claim C9: an item carrying the unknown field `color` is
accepted by the deserializer and by `load_resources`, not fatally rejected,
because the `Deserialize` derive on `YamlResource` carries no
`deny_unknown_fields` attribute. -/
theorem c9_counterexample :
    deserializeYamlResource c9item =
      Except.ok { name := "r", speed := 1, cores := 2, memory := 3 } ∧
    loadResources [c9item] =
      Except.ok [{ name := "r", speed := 1, cores := 2, memory := 3 }] :=
  ⟨rfl, rfl⟩

/-- Claim C9 (amended): `load_resources` ignores unknown fields (appending an
unknown field never changes the result of deserializing an item) and fatally
rejects an input in which any of the fields name, speed, cores, memory is
missing from some item. -/
theorem c9_load_resources_fields :
    ∀ fields : List (String × YamlValue),
      (∀ (k : String) (v : YamlValue),
        k ≠ "name" → k ≠ "speed" → k ≠ "cores" → k ≠ "memory" →
        deserializeYamlResource (fields ++ [(k, v)]) = deserializeYamlResource fields) ∧
      (((∀ v, ("name", v) ∉ fields) ∨ (∀ v, ("speed", v) ∉ fields) ∨
        (∀ v, ("cores", v) ∉ fields) ∨ (∀ v, ("memory", v) ∉ fields)) →
        (∀ r, deserializeYamlResource fields ≠ Except.ok r) ∧
        (∀ items, fields ∈ items → ∀ rs, loadResources items ≠ Except.ok rs)) := by
  intro fields
  constructor
  · intro k v hk1 hk2 hk3 hk4
    exact deserializeGo_skip_unknown k v hk1 hk2 hk3 hk4 fields none none none none
  · intro hmiss
    have hfail : ∀ r, deserializeYamlResource fields ≠ Except.ok r := by
      intro r h
      obtain ⟨q1, q2, q3, q4⟩ := deserializeGo_ok_fields fields none none none none r h
      rcases hmiss with hm | hm | hm | hm
      · rcases q1 with q1 | ⟨v, hv⟩
        · cases q1
        · exact hm v hv
      · rcases q2 with q2 | ⟨v, hv⟩
        · cases q2
        · exact hm v hv
      · rcases q3 with q3 | ⟨v, hv⟩
        · cases q3
        · exact hm v hv
      · rcases q4 with q4 | ⟨v, hv⟩
        · cases q4
        · exact hm v hv
    refine ⟨hfail, ?_⟩
    intro items hin rs h
    obtain ⟨r, hr⟩ := loadResources_ok_all items rs h fields hin
    exact hfail r hr

/-- Witness for amended claim C9: the unknown field `color` is ignored on the
concrete item, and dropping the `memory` field from it is fatal. -/
theorem c9_witness :
    deserializeYamlResource (c9good ++ [("color", YamlValue.str "red")]) =
      deserializeYamlResource c9good ∧
    ∀ rs, loadResources [[("name", YamlValue.str "r"), ("speed", YamlValue.num 1),
      ("cores", YamlValue.num 2)]] ≠ Except.ok rs :=
  ⟨(c9_load_resources_fields c9good).1 "color" (YamlValue.str "red")
      (by decide) (by decide) (by decide) (by decide),
    fun rs =>
      ((c9_load_resources_fields
            [("name", YamlValue.str "r"), ("speed", YamlValue.num 1),
             ("cores", YamlValue.num 2)]).2
          (Or.inr (Or.inr (Or.inr fun v hv => by simp at hv)))).2
        [[("name", YamlValue.str "r"), ("speed", YamlValue.num 1),
          ("cores", YamlValue.num 2)]]
        (List.mem_cons_self _ _) rs⟩

/-- Reference selection following the words of the spec: pick the candidate
with minimum wait, resolving ties to the first encountered, together with its
wait. -/
def specSelect (time : Rat) : List Container → Option (Container × Rat)
  | [] => none
  | c :: rest =>
      match specSelect time rest with
      | none => some (c, candidateWait time c)
      | some (c', w') =>
          if candidateWait time c ≤ w' then some (c, candidateWait time c) else some (c', w')

/-- The selection is empty only on the empty candidate list. -/
theorem specSelect_eq_none (time : Rat) :
    ∀ l : List Container, specSelect time l = none → l = [] := by
  intro l h
  cases l with
  | nil => rfl
  | cons c rest =>
      exfalso
      simp only [specSelect] at h
      cases hsel : specSelect time rest with
      | none => rw [hsel] at h; exact Option.noConfusion h
      | some p =>
          obtain ⟨c', w'⟩ := p
          rw [hsel] at h
          dsimp only at h
          split_ifs at h

/-- Resolution of the scan result against a current best `(i₀, w₀)`: the
reference selection replaces it only with a strictly smaller wait. -/
def combineBest (best : Option (Container × Rat)) (i₀ : Nat) (w₀ : Rat) :
    Option Nat × Rat :=
  match best with
  | none => (some i₀, w₀)
  | some (c, w) => if w < w₀ then (some c.id, w) else (some i₀, w₀)

/-- Conversion of the reference selection to the scan result shape. -/
def bestToPair : Option (Container × Rat) → Option Nat × Rat
  | none => (none, 0)
  | some (c, w) => (some c.id, w)

/-- The source scan started from a current best agrees with the reference
selection: a later candidate wins only with a strictly smaller wait. -/
theorem scanNearest_some (time : Rat) : ∀ (l : List Container) (i₀ : Nat) (w₀ : Rat),
    scanNearest time (some i₀, w₀) l = combineBest (specSelect time l) i₀ w₀ := by
  intro l
  induction l with
  | nil =>
      intro i₀ w₀
      rfl
  | cons c rest ih =>
      intro i₀ w₀
      cases hsel : specSelect time rest with
      | none =>
          have hcons : specSelect time (c :: rest) = some (c, candidateWait time c) := by
            simp only [specSelect]
            rw [hsel]
          simp only [scanNearest]
          rw [hcons]
          simp only [combineBest]
          by_cases hd : candidateWait time c < w₀
          · rw [if_pos (Or.inr hd), if_pos hd, ih, hsel]
            simp only [combineBest]
          · rw [if_neg (by simp [hd]), if_neg hd, ih, hsel]
            simp only [combineBest]
      | some p =>
          obtain ⟨c', w'⟩ := p
          by_cases hle : candidateWait time c ≤ w'
          · have hcons : specSelect time (c :: rest) = some (c, candidateWait time c) := by
              simp only [specSelect]
              rw [hsel]
              exact if_pos hle
            simp only [scanNearest]
            rw [hcons]
            simp only [combineBest]
            by_cases hd : candidateWait time c < w₀
            · rw [if_pos (Or.inr hd), if_pos hd, ih, hsel]
              simp only [combineBest]
              rw [if_neg (not_lt.mpr hle)]
            · rw [if_neg (by simp [hd]), if_neg hd, ih, hsel]
              simp only [combineBest]
              rw [if_neg fun hlt => hd (lt_of_le_of_lt hle hlt)]
          · have hw : w' < candidateWait time c := lt_of_not_le hle
            have hcons : specSelect time (c :: rest) = some (c', w') := by
              simp only [specSelect]
              rw [hsel]
              exact if_neg hle
            simp only [scanNearest]
            rw [hcons]
            simp only [combineBest]
            by_cases hd : candidateWait time c < w₀
            · rw [if_pos (Or.inr hd), if_pos (lt_trans hw hd), ih, hsel]
              simp only [combineBest]
              rw [if_pos hw]
            · rw [if_neg (by simp [hd]), ih, hsel]
              simp only [combineBest]

/-- The source scan started from the empty best returns exactly the reference
selection. -/
theorem scanNearest_none (time : Rat) : ∀ l : List Container,
    scanNearest time ((none : Option Nat), (0 : Rat)) l =
      bestToPair (specSelect time l) := by
  intro l
  cases l with
  | nil => rfl
  | cons c rest =>
      cases hsel : specSelect time rest with
      | none =>
          have hcons : specSelect time (c :: rest) = some (c, candidateWait time c) := by
            simp only [specSelect]
            rw [hsel]
          simp only [scanNearest]
          rw [hcons, if_pos (Or.inl trivial), scanNearest_some, hsel]
          simp only [combineBest, bestToPair]
      | some p =>
          obtain ⟨c', w'⟩ := p
          by_cases hle : candidateWait time c ≤ w'
          · have hcons : specSelect time (c :: rest) = some (c, candidateWait time c) := by
              simp only [specSelect]
              rw [hsel]
              exact if_pos hle
            simp only [scanNearest]
            rw [hcons, if_pos (Or.inl trivial), scanNearest_some, hsel]
            simp only [combineBest, bestToPair]
            rw [if_neg (not_lt.mpr hle)]
          · have hw : w' < candidateWait time c := lt_of_not_le hle
            have hcons : specSelect time (c :: rest) = some (c', w') := by
              simp only [specSelect]
              rw [hsel]
              exact if_neg hle
            simp only [scanNearest]
            rw [hcons, if_pos (Or.inl trivial), scanNearest_some, hsel]
            simp only [combineBest, bestToPair]
            rw [if_pos hw]

/-- The reference selection picks a candidate of the list achieving the
minimum wait, and it is the first candidate achieving it. -/
theorem specSelect_spec (time : Rat) : ∀ (l : List Container) (c : Container) (w : Rat),
    specSelect time l = some (c, w) →
    c ∈ l ∧ w = candidateWait time c ∧
    (∀ x ∈ l, w ≤ candidateWait time x) ∧
    ∃ l₁ l₂, l = l₁ ++ c :: l₂ ∧ ∀ x ∈ l₁, w < candidateWait time x := by
  intro l
  induction l with
  | nil => intro c w h; cases h
  | cons a rest ih =>
      intro c w h
      simp only [specSelect] at h
      cases hsel : specSelect time rest with
      | none =>
          rw [hsel] at h
          dsimp only at h
          injection h with h1
          have hc : a = c := congrArg Prod.fst h1
          have hw : candidateWait time a = w := congrArg Prod.snd h1
          subst hc
          subst hw
          have hrest : rest = [] := specSelect_eq_none time rest hsel
          subst hrest
          refine ⟨List.mem_cons_self _ _, rfl, ?_, [], [], rfl, fun x hx => absurd hx (by simp)⟩
          intro x hx
          rcases List.mem_cons.mp hx with hx | hx
          · subst hx; exact le_refl _
          · cases hx
      | some p =>
          obtain ⟨c', w'⟩ := p
          rw [hsel] at h
          dsimp only at h
          obtain ⟨hmem, hw', hmin, l₁, l₂, hsplit, hfirst⟩ := ih c' w' hsel
          by_cases hle : candidateWait time a ≤ w'
          · rw [if_pos hle] at h
            injection h with h1
            have hc : a = c := congrArg Prod.fst h1
            have hw : candidateWait time a = w := congrArg Prod.snd h1
            subst hc
            subst hw
            refine ⟨List.mem_cons_self _ _, rfl, ?_, [], rest, rfl,
              fun x hx => absurd hx (by simp)⟩
            intro x hx
            rcases List.mem_cons.mp hx with hx | hx
            · subst hx; exact le_refl _
            · exact le_trans hle (hmin x hx)
          · rw [if_neg hle] at h
            injection h with h1
            have hc : c' = c := congrArg Prod.fst h1
            have hw : w' = w := congrArg Prod.snd h1
            subst hc
            subst hw
            refine ⟨List.mem_cons_of_mem _ hmem, hw', ?_, a :: l₁, l₂, by rw [hsplit]; rfl, ?_⟩
            · intro x hx
              rcases List.mem_cons.mp hx with hx | hx
              · subst hx; exact le_of_lt (lt_of_not_le hle)
              · exact hmin x hx
            · intro x hx
              rcases List.mem_cons.mp hx with hx | hx
              · subst hx; exact lt_of_not_le hle
              · exact hfirst x hx

/-- A find-by-id in a table with unique ids returns exactly the member. -/
theorem find_container_of_nodup : ∀ (l : List Container),
    (l.map fun c => c.id).Nodup → ∀ c ∈ l,
    l.find? (fun x => decide (x.id = c.id)) = some c := by
  intro l
  induction l with
  | nil => intro _ c hc; cases hc
  | cons a rest ih =>
      intro hnd c hc
      rw [List.map_cons, List.nodup_cons] at hnd
      rcases List.mem_cons.mp hc with h | h
      · subst h
        simp [List.find?]
      · have hne : ¬(a.id = c.id) := by
          intro he
          exact hnd.1 (he ▸ List.mem_map_of_mem (fun c => c.id) h)
        simp only [List.find?]
        rw [decide_eq_false hne]
        exact ih hnd.2 c h

/-- Lookup by id of a member container, under unique ids. -/
theorem getContainer_mem_nodup (cm : ContainerManager)
    (hnd : (cm.containers.map fun c => c.id).Nodup) {c : Container}
    (hc : c ∈ cm.containers) : getContainer cm c.id = some c :=
  find_container_of_nodup cm.containers hnd c hc

/-- Reference decision following the spec words as amended: the minimum-wait
candidate (ties to the first encountered) yields Warm when it is Idle and Cold
with its wait otherwise — also when that wait is zero for a Deploying
candidate; with no candidate, a successful deploy yields Cold with the full
deployment time and a failed one yields Rejected. -/
def specTryInvoke (app : Application) (cm : ContainerManager) (time : Rat) :
    Option (InvokerDecision × ContainerManager) :=
  match specSelect time (getPossibleContainers cm app true) with
  | some (c, w) =>
      some (if c.status = ContainerStatus.idle then InvokerDecision.Warm c.id
            else InvokerDecision.Cold c.id w, cm)
  | none =>
      match tryDeploy cm app time with
      | some ((id, delay), cm') => some (InvokerDecision.Cold id delay, cm')
      | none => some (InvokerDecision.Rejected, cm)

/-- Claim C1 (amended): under unique container ids, `try_invoke` equals the
reference decision — it scans the possible containers (Deploying included),
picks the minimum-wait candidate with ties to the first encountered, returns
Warm when that candidate is Idle and Cold with its wait otherwise (also when
the wait is zero), falls back to `try_deploy` with Cold(new, deployment_time)
or Rejected when there is no candidate, and never returns Queued. -/
theorem c1_try_invoke_characterization (app : Application) (cm : ContainerManager)
    (time : Rat) (hnd : (cm.containers.map fun c => c.id).Nodup) :
    tryInvoke app cm time = specTryInvoke app cm time ∧
    (∀ c w, specSelect time (getPossibleContainers cm app true) = some (c, w) →
      c ∈ getPossibleContainers cm app true ∧ w = candidateWait time c ∧
      (∀ x ∈ getPossibleContainers cm app true, w ≤ candidateWait time x) ∧
      ∃ l₁ l₂, getPossibleContainers cm app true = l₁ ++ c :: l₂ ∧
        ∀ x ∈ l₁, w < candidateWait time x) ∧
    (∀ cm', tryInvoke app cm time ≠ some (InvokerDecision.Queued, cm')) := by
  have hmain : tryInvoke app cm time = specTryInvoke app cm time := by
    unfold tryInvoke specTryInvoke
    rw [scanNearest_none]
    cases hsel : specSelect time (getPossibleContainers cm app true) with
    | none => rfl
    | some p =>
        obtain ⟨c, w⟩ := p
        have hc : getContainer cm c.id = some c :=
          getContainer_mem_nodup cm hnd
            (List.mem_of_mem_filter (specSelect_spec time _ c w hsel).1)
        simp only [bestToPair]
        rw [hc]
        dsimp only
        by_cases hst : c.status = ContainerStatus.idle
        · rw [if_pos hst, if_pos hst]
        · rw [if_neg hst, if_neg hst]
  refine ⟨hmain, fun c w hsel => specSelect_spec time _ c w hsel, ?_⟩
  intro cm' hq
  rw [hmain] at hq
  unfold specTryInvoke at hq
  cases hsel : specSelect time (getPossibleContainers cm app true) with
  | none =>
      rw [hsel] at hq
      cases hdep : tryDeploy cm app time with
      | none => rw [hdep] at hq; simp at hq
      | some q =>
          obtain ⟨⟨id, delay⟩, cm₂⟩ := q
          rw [hdep] at hq
          simp at hq
  | some p =>
      obtain ⟨c, w⟩ := p
      rw [hsel] at hq
      dsimp only at hq
      by_cases hst : c.status = ContainerStatus.idle
      · rw [if_pos hst] at hq
        simp at hq
      · rw [if_neg hst] at hq
        simp at hq

/-- Application used in the C1 counterexample and witness. -/
def c1app : Application := { id := 0, cores := 1, memory := 1, deployment_time := 5 }

/-- Deploying container whose remaining deploy time at time 5 is exactly
zero. -/
def c1container : Container :=
  { id := 0
    app_id := 0
    status := ContainerStatus.deploying
    deployment_time := 5
    last_change := 0
    resources := { cores := 1, memory := 1 }
    invocations := [] }

/-- Container manager holding only `c1container`, with no free resources. -/
def c1cm : ContainerManager :=
  { containers := [c1container]
    free_cores := 0
    free_memory := 0
    next_id := 1 }

/-- Counterexample to claim C1 as stated: at time 5 the only candidate is a
Deploying container with remaining wait 0, so the minimum wait is 0, yet
`try_invoke` returns Cold(0, 0) and not Warm — the code tests the container
status, not whether the wait is zero. -/
theorem c1_counterexample :
    ((getPossibleContainers c1cm c1app true).map fun c => candidateWait 5 c) = [0] ∧
    tryInvoke c1app c1cm 5 = some (InvokerDecision.Cold 0 0, c1cm) ∧
    tryInvoke c1app c1cm 5 ≠ some (InvokerDecision.Warm 0, c1cm) := by
  have hw : candidateWait 5 c1container = 0 := by
    simp [candidateWait, c1container]
  have hposs : getPossibleContainers c1cm c1app true = [c1container] := rfl
  have hsel : specSelect 5 [c1container] = some (c1container, candidateWait 5 c1container) :=
    rfl
  have hti : tryInvoke c1app c1cm 5 = some (InvokerDecision.Cold 0 0, c1cm) := by
    unfold tryInvoke
    rw [hposs, scanNearest_none, hsel, hw]
    rfl
  refine ⟨?_, hti, ?_⟩
  · rw [hposs, List.map_cons, List.map_nil, hw]
  · rw [hti]
    simp

/-- Witness for amended claim C1 at the concrete deploying-container state. -/
theorem c1_witness :
    tryInvoke c1app c1cm 5 = specTryInvoke c1app c1cm 5 ∧
    tryInvoke c1app c1cm 5 ≠ some (InvokerDecision.Queued, c1cm) :=
  ⟨(c1_try_invoke_characterization c1app c1cm 5 (by simp [c1cm, c1container])).1,
   (c1_try_invoke_characterization c1app c1cm 5 (by simp [c1cm, c1container])).2.2 c1cm⟩

/-- The container-choice function never produces the Queued decision. -/
theorem tryInvoke_no_queued (app : Application) (cm : ContainerManager) (time : Rat) :
    ∀ cm₁, tryInvoke app cm time ≠ some (InvokerDecision.Queued, cm₁) := by
  intro cm₁ h
  unfold tryInvoke at h
  rcases hsn : scanNearest time ((none : Option Nat), (0 : Rat))
      (getPossibleContainers cm app true) with ⟨nearest, wait⟩
  rw [hsn] at h
  cases nearest with
  | none =>
      dsimp only at h
      cases hdep : tryDeploy cm app time with
      | none => rw [hdep] at h; simp at h
      | some q =>
          obtain ⟨⟨id, delay⟩, cm₂⟩ := q
          rw [hdep] at h
          simp at h
  | some id =>
      dsimp only at h
      cases hg : getContainer cm id with
      | none => rw [hg] at h; simp at h
      | some c =>
          rw [hg] at h
          dsimp only at h
          split_ifs at h <;> simp at h

/-- A Rejected decision leaves the container manager unchanged. -/
theorem tryInvoke_rejected_eq (app : Application) (cm : ContainerManager) (time : Rat)
    (cm₁ : ContainerManager)
    (h : tryInvoke app cm time = some (InvokerDecision.Rejected, cm₁)) : cm₁ = cm := by
  unfold tryInvoke at h
  rcases hsn : scanNearest time ((none : Option Nat), (0 : Rat))
      (getPossibleContainers cm app true) with ⟨nearest, wait⟩
  rw [hsn] at h
  cases nearest with
  | none =>
      dsimp only at h
      cases hdep : tryDeploy cm app time with
      | none =>
          rw [hdep] at h
          simp only [Option.some.injEq, Prod.mk.injEq] at h
          exact h.2.symm
      | some q =>
          obtain ⟨⟨id, delay⟩, cm₂⟩ := q
          rw [hdep] at h
          simp at h
  | some id =>
      dsimp only at h
      cases hg : getContainer cm id with
      | none => rw [hg] at h; simp at h
      | some c =>
          rw [hg] at h
          dsimp only at h
          split_ifs at h <;> simp at h

/-- Behaviour of the shared invoke body (proved for the naive invoker; the
FIFO one is definitionally the same function). -/
theorem naiveInvoke_spec (inv : Invocation) (fr : FunctionRegistry)
    (queue : List InvokerQueueItem) (cm : ContainerManager) (time : Rat)
    (dec : InvokerDecision) (q' : List InvokerQueueItem) (cm' : ContainerManager)
    (h : naiveInvoke inv fr queue cm time = some (dec, q', cm')) :
    dec ≠ InvokerDecision.Rejected ∧
    (dec = InvokerDecision.Queued →
      q' = queue ++ [{ invocation_id := inv.id, func_id := inv.func_id,
                       app_id := inv.app_id, time := inv.arrival_time }] ∧
      q'.length = queue.length + 1 ∧
      ∃ app, getApp fr inv.app_id = some app ∧
        tryInvoke app cm time = some (InvokerDecision.Rejected, cm') ∧ cm' = cm) ∧
    (dec ≠ InvokerDecision.Queued →
      q' = queue ∧ ∃ app, getApp fr inv.app_id = some app ∧
        tryInvoke app cm time = some (dec, cm')) := by
  unfold naiveInvoke at h
  cases happ : getApp fr inv.app_id with
  | none => rw [happ] at h; cases h
  | some app =>
      rw [happ] at h
      dsimp only at h
      cases hti : tryInvoke app cm time with
      | none => rw [hti] at h; cases h
      | some p =>
          obtain ⟨d0, cm₀⟩ := p
          rw [hti] at h
          dsimp only at h
          by_cases hd : d0 = InvokerDecision.Rejected
          · rw [if_pos hd] at h
            simp only [Option.some.injEq, Prod.mk.injEq] at h
            obtain ⟨h1, h2, h3⟩ := h
            subst hd
            have hcm : cm₀ = cm := tryInvoke_rejected_eq app cm time cm₀ hti
            refine ⟨by rw [← h1]; simp, fun _ => ?_, fun hne => absurd h1.symm hne⟩
            refine ⟨h2.symm, by rw [← h2]; simp, app, rfl, ?_, by rw [← h3, hcm]⟩
            rw [← h3]
            exact hti
          · rw [if_neg hd] at h
            simp only [Option.some.injEq, Prod.mk.injEq] at h
            obtain ⟨h1, h2, h3⟩ := h
            subst h1
            subst h2
            subst h3
            refine ⟨hd, fun hq => absurd hti (hq ▸ tryInvoke_no_queued app cm time cm₀),
              fun _ => ⟨rfl, app, rfl, hti⟩⟩

/-- Claim C8: for both invoker policies, `invoke` never returns Rejected — a
rejecting `try_invoke` makes it append the invocation (id, function id, app
id, arrival time) at the back of the queue, growing it by exactly one, and
return Queued; any other decision is returned directly with the queue
unchanged. -/
theorem c8_invoke_queues_on_reject (inv : Invocation) (fr : FunctionRegistry)
    (queue : List InvokerQueueItem) (cm : ContainerManager) (time : Rat)
    (dec : InvokerDecision) (q' : List InvokerQueueItem) (cm' : ContainerManager) :
    (naiveInvoke inv fr queue cm time = some (dec, q', cm') →
      dec ≠ InvokerDecision.Rejected ∧
      (dec = InvokerDecision.Queued →
        q' = queue ++ [{ invocation_id := inv.id, func_id := inv.func_id,
                         app_id := inv.app_id, time := inv.arrival_time }] ∧
        q'.length = queue.length + 1 ∧
        ∃ app, getApp fr inv.app_id = some app ∧
          tryInvoke app cm time = some (InvokerDecision.Rejected, cm') ∧ cm' = cm) ∧
      (dec ≠ InvokerDecision.Queued →
        q' = queue ∧ ∃ app, getApp fr inv.app_id = some app ∧
          tryInvoke app cm time = some (dec, cm'))) ∧
    (fifoInvoke inv fr queue cm time = some (dec, q', cm') →
      dec ≠ InvokerDecision.Rejected ∧
      (dec = InvokerDecision.Queued →
        q' = queue ++ [{ invocation_id := inv.id, func_id := inv.func_id,
                         app_id := inv.app_id, time := inv.arrival_time }] ∧
        q'.length = queue.length + 1 ∧
        ∃ app, getApp fr inv.app_id = some app ∧
          tryInvoke app cm time = some (InvokerDecision.Rejected, cm') ∧ cm' = cm) ∧
      (dec ≠ InvokerDecision.Queued →
        q' = queue ∧ ∃ app, getApp fr inv.app_id = some app ∧
          tryInvoke app cm time = some (dec, cm'))) :=
  ⟨fun h => naiveInvoke_spec inv fr queue cm time dec q' cm' h,
   fun h => naiveInvoke_spec inv fr queue cm time dec q' cm' h⟩

/-- Application used in the C8 witness. -/
def c8app : Application := { id := 0, cores := 1, memory := 1, deployment_time := 5 }

/-- Empty container manager with no free resources (every invocation is
rejected by `try_invoke`). -/
def c8cm : ContainerManager :=
  { containers := [], free_cores := 0, free_memory := 0, next_id := 0 }

/-- Invocation used in the C8 witness. -/
def c8inv : Invocation := { id := 7, func_id := 1, app_id := 0, arrival_time := 2 }

/-- Queue item produced for `c8inv`. -/
def c8item : InvokerQueueItem :=
  { invocation_id := 7, func_id := 1, app_id := 0, time := 2 }

/-- Witness for claim C8: on a host without resources the invocation is
queued, the queue grows by one, and the decision is not Rejected. -/
theorem c8_witness :
    InvokerDecision.Queued ≠ InvokerDecision.Rejected ∧
    ([c8item] : List InvokerQueueItem).length = ([] : List InvokerQueueItem).length + 1 :=
  have h := (c8_invoke_queues_on_reject c8inv [c8app] ([] : List InvokerQueueItem) c8cm 3
      InvokerDecision.Queued [c8item] c8cm).1 rfl
  ⟨h.1, (h.2.1 rfl).2.1⟩

/-- Prefix property of the FIFO dequeue loop, generalized over the
accumulator: the loop admits exactly a prefix of the queue and stops when the
front item is Rejected against the final container state. -/
theorem fifoDequeueGo_spec (fr : FunctionRegistry) (time : Rat) :
    ∀ (queue : List InvokerQueueItem) (cm : ContainerManager) (st : Stats)
      (deq d : List DequeuedInvocation) (q' : List InvokerQueueItem)
      (cm' : ContainerManager) (st' : Stats),
      fifoDequeueGo fr time queue cm st deq = some (d, q', cm', st') →
      ∃ k, k ≤ queue.length ∧ q' = queue.drop k ∧
        d.map (fun x => x.id) =
          deq.map (fun x => x.id) ++ (queue.take k).map (fun it => it.invocation_id) ∧
        (∀ item rest2, q' = item :: rest2 →
          ∃ app, getApp fr item.app_id = some app ∧
            tryInvoke app cm' time = some (InvokerDecision.Rejected, cm')) := by
  intro queue
  induction queue with
  | nil =>
      intro cm st deq d q' cm' st' h
      simp only [fifoDequeueGo, Option.some.injEq, Prod.mk.injEq] at h
      obtain ⟨h1, h2, h3, h4⟩ := h
      refine ⟨0, Nat.zero_le _, by rw [← h2]; rfl, by rw [← h1]; simp, ?_⟩
      intro item rest2 hq
      rw [← h2] at hq
      cases hq
  | cons item rest ih =>
      intro cm st deq d q' cm' st' h
      simp only [fifoDequeueGo] at h
      cases happ : getApp fr item.app_id with
      | none => rw [happ] at h; cases h
      | some app =>
          rw [happ] at h
          dsimp only at h
          cases hti : tryInvoke app cm time with
          | none => rw [hti] at h; cases h
          | some p =>
              obtain ⟨d0, cm₁⟩ := p
              rw [hti] at h
              cases d0 with
              | Warm id =>
                  dsimp only at h
                  cases hg : getContainer cm₁ id with
                  | none => rw [hg] at h; cases h
                  | some c =>
                      rw [hg] at h
                      dsimp only at h
                      obtain ⟨k, hk, hq, hd, hstop⟩ := ih _ _ _ _ _ _ _ h
                      refine ⟨k + 1, Nat.succ_le_succ hk, hq, ?_, hstop⟩
                      rw [hd]
                      simp
              | Cold id delay =>
                  dsimp only at h
                  obtain ⟨k, hk, hq, hd, hstop⟩ := ih _ _ _ _ _ _ _ h
                  refine ⟨k + 1, Nat.succ_le_succ hk, hq, ?_, hstop⟩
                  rw [hd]
                  simp
              | Rejected =>
                  dsimp only at h
                  simp only [Option.some.injEq, Prod.mk.injEq] at h
                  obtain ⟨h1, h2, h3, h4⟩ := h
                  have hcm : cm₁ = cm := tryInvoke_rejected_eq app cm time cm₁ hti
                  refine ⟨0, Nat.zero_le _, by rw [← h2]; rfl, by rw [← h1]; simp, ?_⟩
                  intro item0 rest2 hq0
                  rw [← h2] at hq0
                  injection hq0 with hi1 hi2
                  subst hi1
                  exact ⟨app, happ, by rw [← h3, hcm]; rw [hcm] at hti; exact hti⟩
              | Queued =>
                  dsimp only at h
                  cases h

/-- Claim C2: a FIFO dequeue call admits exactly a prefix of the queue — the
dequeued list corresponds to `take k` and the remaining queue is `drop k` —
and when items remain, the new front item is Rejected by `try_invoke` against
the final container state, so no later queued invocation is admitted in the
same call. -/
theorem c2_fifo_dequeue_prefix (fr : FunctionRegistry) (time : Rat)
    (queue : List InvokerQueueItem) (cm : ContainerManager) (st : Stats)
    (d : List DequeuedInvocation) (q' : List InvokerQueueItem)
    (cm' : ContainerManager) (st' : Stats)
    (h : fifoDequeue fr time queue cm st = some (d, q', cm', st')) :
    ∃ k, k ≤ queue.length ∧ q' = queue.drop k ∧
      d.map (fun x => x.id) = (queue.take k).map (fun it => it.invocation_id) ∧
      (∀ item rest2, q' = item :: rest2 →
        ∃ app, getApp fr item.app_id = some app ∧
          tryInvoke app cm' time = some (InvokerDecision.Rejected, cm')) := by
  obtain ⟨k, hk, hq, hd, hstop⟩ :=
    fifoDequeueGo_spec fr time queue cm st [] d q' cm' st' h
  exact ⟨k, hk, hq, by simpa using hd, hstop⟩

/-- Application used in the C2 and C7 witnesses. -/
def c2app : Application := { id := 0, cores := 1, memory := 1, deployment_time := 5 }

/-- Idle container for `c2app`. -/
def c2idle : Container :=
  { id := 0
    app_id := 0
    status := ContainerStatus.idle
    deployment_time := 5
    last_change := 0
    resources := { cores := 1, memory := 1 }
    invocations := [] }

/-- Host with one idle container and no free resources. -/
def c2cm : ContainerManager :=
  { containers := [c2idle], free_cores := 0, free_memory := 0, next_id := 1 }

/-- First queued item (admitted into the idle container). -/
def c2item1 : InvokerQueueItem := { invocation_id := 1, func_id := 0, app_id := 0, time := 0 }

/-- Second queued item (rejected once the container is Running). -/
def c2item2 : InvokerQueueItem := { invocation_id := 2, func_id := 0, app_id := 0, time := 0 }

/-- Container manager after the first admission. -/
def c2cmAfter : ContainerManager :=
  { containers := [{ c2idle with
      status := ContainerStatus.running
      last_change := 0
      invocations := [1] }]
    free_cores := 0
    free_memory := 0
    next_id := 1 }

/-- Stats trace produced by the witness dequeue. -/
def c2stAfter : Stats :=
  [StatsCall.queueing 0 0 ((0 : Rat) - 0),
   StatsCall.wasted ((0 : Rat) - 0) { cores := 1, memory := 1 },
   StatsCall.coldStart 0 0 ((0 : Rat) - 0)]

/-- Witness for claim C2: with two queued items and a single idle container,
the FIFO dequeue admits exactly the first item and stops at the second. -/
theorem c2_witness :
    ∃ k, k ≤ ([c2item1, c2item2] : List InvokerQueueItem).length ∧
      [c2item2] = ([c2item1, c2item2] : List InvokerQueueItem).drop k ∧
      ([{ id := 1, container_id := 0, delay := none }] :
          List DequeuedInvocation).map (fun x => x.id) =
        (([c2item1, c2item2] : List InvokerQueueItem).take k).map
          (fun it => it.invocation_id) ∧
      (∀ item rest2, ([c2item2] : List InvokerQueueItem) = item :: rest2 →
        ∃ app, getApp [c2app] item.app_id = some app ∧
          tryInvoke app c2cmAfter 0 = some (InvokerDecision.Rejected, c2cmAfter)) :=
  c2_fifo_dequeue_prefix [c2app] 0 [c2item1, c2item2] c2cm []
    [{ id := 1, container_id := 0, delay := none }] [c2item2] c2cmAfter c2stAfter rfl

/-- Stats accounting of the naive dequeue loop, generalized over the
accumulators: the trace only grows, and every admitted invocation contributes
its queueing-time and cold-start samples. -/
theorem naiveDequeueGo_stats (fr : FunctionRegistry) (time : Rat) :
    ∀ (queue : List InvokerQueueItem) (cm : ContainerManager) (st : Stats)
      (deq : List DequeuedInvocation) (newQ : List InvokerQueueItem)
      (d : List DequeuedInvocation) (q' : List InvokerQueueItem)
      (cm' : ContainerManager) (st' : Stats),
      naiveDequeueGo fr time queue cm st deq newQ = some (d, q', cm', st') →
      (∀ x ∈ st, x ∈ st') ∧
      ∀ dq ∈ d, dq ∈ deq ∨ ∃ item ∈ queue, dq.id = item.invocation_id ∧
        StatsCall.queueing item.app_id item.func_id (time - item.time) ∈ st' ∧
        (dq.delay = none →
          StatsCall.coldStart item.app_id item.func_id (time - item.time) ∈ st') ∧
        (∀ dl, dq.delay = some dl →
          StatsCall.coldStart item.app_id item.func_id (time - item.time + dl) ∈ st') := by
  intro queue
  induction queue with
  | nil =>
      intro cm st deq newQ d q' cm' st' h
      simp only [naiveDequeueGo, Option.some.injEq, Prod.mk.injEq] at h
      obtain ⟨h1, h2, h3, h4⟩ := h
      subst h4
      refine ⟨fun x hx => hx, fun dq hdq => Or.inl ?_⟩
      rw [← h1] at hdq
      exact hdq
  | cons item rest ih =>
      intro cm st deq newQ d q' cm' st' h
      simp only [naiveDequeueGo] at h
      cases happ : getApp fr item.app_id with
      | none => rw [happ] at h; cases h
      | some app =>
          rw [happ] at h
          dsimp only at h
          cases hti : tryInvoke app cm time with
          | none => rw [hti] at h; cases h
          | some p =>
              obtain ⟨d0, cm₁⟩ := p
              rw [hti] at h
              cases d0 with
              | Warm id =>
                  dsimp only at h
                  cases hg : getContainer cm₁ id with
                  | none => rw [hg] at h; cases h
                  | some c =>
                      rw [hg] at h
                      dsimp only at h
                      obtain ⟨hmono, hmem⟩ := ih _ _ _ _ _ _ _ _ h
                      have hq1 : StatsCall.queueing item.app_id item.func_id
                          (time - item.time) ∈ st' := by
                        apply hmono
                        by_cases hst : c.status = ContainerStatus.idle <;>
                          simp [hst]
                      have hc1 : StatsCall.coldStart item.app_id item.func_id
                          (time - item.time) ∈ st' := by
                        apply hmono
                        by_cases hst : c.status = ContainerStatus.idle <;>
                          simp [hst]
                      refine ⟨fun x hx => hmono x ?_, fun dq hdq => ?_⟩
                      · by_cases hst : c.status = ContainerStatus.idle <;>
                          simp [hst, hx]
                      · rcases hmem dq hdq with hin | ⟨item', hitem', hrest⟩
                        · rcases List.mem_append.mp hin with hin | hin
                          · exact Or.inl hin
                          · have hdq2 := List.mem_singleton.mp hin
                            subst hdq2
                            refine Or.inr ⟨item, List.mem_cons_self _ _, rfl, hq1,
                              fun _ => hc1, fun dl hdl => ?_⟩
                            simp at hdl
                        · exact Or.inr ⟨item', List.mem_cons_of_mem _ hitem', hrest⟩
              | Cold id delay =>
                  dsimp only at h
                  obtain ⟨hmono, hmem⟩ := ih _ _ _ _ _ _ _ _ h
                  have hq1 : StatsCall.queueing item.app_id item.func_id
                      (time - item.time) ∈ st' := by
                    apply hmono
                    simp
                  have hc1 : StatsCall.coldStart item.app_id item.func_id
                      (time - item.time + delay) ∈ st' := by
                    apply hmono
                    simp
                  refine ⟨fun x hx => hmono x (by simp [hx]), fun dq hdq => ?_⟩
                  rcases hmem dq hdq with hin | ⟨item', hitem', hrest⟩
                  · rcases List.mem_append.mp hin with hin | hin
                    · exact Or.inl hin
                    · have hdq2 := List.mem_singleton.mp hin
                      subst hdq2
                      refine Or.inr ⟨item, List.mem_cons_self _ _, rfl, hq1,
                        fun hnone => by simp at hnone, fun dl hdl => ?_⟩
                      have : dl = delay := by simpa using hdl.symm
                      rw [this]
                      exact hc1
                  · exact Or.inr ⟨item', List.mem_cons_of_mem _ hitem', hrest⟩
              | Rejected =>
                  dsimp only at h
                  obtain ⟨hmono, hmem⟩ := ih _ _ _ _ _ _ _ _ h
                  refine ⟨hmono, fun dq hdq => ?_⟩
                  rcases hmem dq hdq with hin | ⟨item', hitem', hrest⟩
                  · exact Or.inl hin
                  · exact Or.inr ⟨item', List.mem_cons_of_mem _ hitem', hrest⟩
              | Queued =>
                  dsimp only at h
                  cases h

/-- Stats accounting of the FIFO dequeue loop, generalized over the
accumulator. -/
theorem fifoDequeueGo_stats (fr : FunctionRegistry) (time : Rat) :
    ∀ (queue : List InvokerQueueItem) (cm : ContainerManager) (st : Stats)
      (deq : List DequeuedInvocation) (d : List DequeuedInvocation)
      (q' : List InvokerQueueItem) (cm' : ContainerManager) (st' : Stats),
      fifoDequeueGo fr time queue cm st deq = some (d, q', cm', st') →
      (∀ x ∈ st, x ∈ st') ∧
      ∀ dq ∈ d, dq ∈ deq ∨ ∃ item ∈ queue, dq.id = item.invocation_id ∧
        StatsCall.queueing item.app_id item.func_id (time - item.time) ∈ st' ∧
        (dq.delay = none →
          StatsCall.coldStart item.app_id item.func_id (time - item.time) ∈ st') ∧
        (∀ dl, dq.delay = some dl →
          StatsCall.coldStart item.app_id item.func_id (time - item.time + dl) ∈ st') := by
  intro queue
  induction queue with
  | nil =>
      intro cm st deq d q' cm' st' h
      simp only [fifoDequeueGo, Option.some.injEq, Prod.mk.injEq] at h
      obtain ⟨h1, h2, h3, h4⟩ := h
      subst h4
      refine ⟨fun x hx => hx, fun dq hdq => Or.inl ?_⟩
      rw [← h1] at hdq
      exact hdq
  | cons item rest ih =>
      intro cm st deq d q' cm' st' h
      simp only [fifoDequeueGo] at h
      cases happ : getApp fr item.app_id with
      | none => rw [happ] at h; cases h
      | some app =>
          rw [happ] at h
          dsimp only at h
          cases hti : tryInvoke app cm time with
          | none => rw [hti] at h; cases h
          | some p =>
              obtain ⟨d0, cm₁⟩ := p
              rw [hti] at h
              cases d0 with
              | Warm id =>
                  dsimp only at h
                  cases hg : getContainer cm₁ id with
                  | none => rw [hg] at h; cases h
                  | some c =>
                      rw [hg] at h
                      dsimp only at h
                      obtain ⟨hmono, hmem⟩ := ih _ _ _ _ _ _ _ h
                      have hq1 : StatsCall.queueing item.app_id item.func_id
                          (time - item.time) ∈ st' := by
                        apply hmono
                        by_cases hst : c.status = ContainerStatus.idle <;>
                          simp [hst]
                      have hc1 : StatsCall.coldStart item.app_id item.func_id
                          (time - item.time) ∈ st' := by
                        apply hmono
                        by_cases hst : c.status = ContainerStatus.idle <;>
                          simp [hst]
                      refine ⟨fun x hx => hmono x ?_, fun dq hdq => ?_⟩
                      · by_cases hst : c.status = ContainerStatus.idle <;>
                          simp [hst, hx]
                      · rcases hmem dq hdq with hin | ⟨item', hitem', hrest⟩
                        · rcases List.mem_append.mp hin with hin | hin
                          · exact Or.inl hin
                          · have hdq2 := List.mem_singleton.mp hin
                            subst hdq2
                            refine Or.inr ⟨item, List.mem_cons_self _ _, rfl, hq1,
                              fun _ => hc1, fun dl hdl => ?_⟩
                            simp at hdl
                        · exact Or.inr ⟨item', List.mem_cons_of_mem _ hitem', hrest⟩
              | Cold id delay =>
                  dsimp only at h
                  obtain ⟨hmono, hmem⟩ := ih _ _ _ _ _ _ _ h
                  have hq1 : StatsCall.queueing item.app_id item.func_id
                      (time - item.time) ∈ st' := by
                    apply hmono
                    simp
                  have hc1 : StatsCall.coldStart item.app_id item.func_id
                      (time - item.time + delay) ∈ st' := by
                    apply hmono
                    simp
                  refine ⟨fun x hx => hmono x (by simp [hx]), fun dq hdq => ?_⟩
                  rcases hmem dq hdq with hin | ⟨item', hitem', hrest⟩
                  · rcases List.mem_append.mp hin with hin | hin
                    · exact Or.inl hin
                    · have hdq2 := List.mem_singleton.mp hin
                      subst hdq2
                      refine Or.inr ⟨item, List.mem_cons_self _ _, rfl, hq1,
                        fun hnone => by simp at hnone, fun dl hdl => ?_⟩
                      have hdl2 : dl = delay := by simpa using hdl.symm
                      rw [hdl2]
                      exact hc1
                  · exact Or.inr ⟨item', List.mem_cons_of_mem _ hitem', hrest⟩
              | Rejected =>
                  dsimp only at h
                  simp only [Option.some.injEq, Prod.mk.injEq] at h
                  obtain ⟨h1, h2, h3, h4⟩ := h
                  subst h4
                  refine ⟨fun x hx => hx, fun dq hdq => Or.inl ?_⟩
                  rw [← h1] at hdq
                  exact hdq
              | Queued =>
                  dsimp only at h
                  cases h

/-- Claim C7: for both invoker policies, every invocation admitted from the
queue during a dequeue at the current time contributes a queueing-time sample
of now minus its arrival time, and a cold-start sample of the same quantity
for a Warm admission, or of that plus the delay for a Cold(id, delay)
admission. -/
theorem c7_dequeue_stats_accounting (fr : FunctionRegistry) (time : Rat)
    (queue : List InvokerQueueItem) (cm : ContainerManager) (st : Stats)
    (d : List DequeuedInvocation) (q' : List InvokerQueueItem)
    (cm' : ContainerManager) (st' : Stats) :
    (naiveDequeue fr time queue cm st = some (d, q', cm', st') →
      ∀ dq ∈ d, ∃ item ∈ queue, dq.id = item.invocation_id ∧
        StatsCall.queueing item.app_id item.func_id (time - item.time) ∈ st' ∧
        (dq.delay = none →
          StatsCall.coldStart item.app_id item.func_id (time - item.time) ∈ st') ∧
        (∀ dl, dq.delay = some dl →
          StatsCall.coldStart item.app_id item.func_id (time - item.time + dl) ∈ st')) ∧
    (fifoDequeue fr time queue cm st = some (d, q', cm', st') →
      ∀ dq ∈ d, ∃ item ∈ queue, dq.id = item.invocation_id ∧
        StatsCall.queueing item.app_id item.func_id (time - item.time) ∈ st' ∧
        (dq.delay = none →
          StatsCall.coldStart item.app_id item.func_id (time - item.time) ∈ st') ∧
        (∀ dl, dq.delay = some dl →
          StatsCall.coldStart item.app_id item.func_id (time - item.time + dl) ∈ st')) := by
  constructor
  · intro h dq hdq
    unfold naiveDequeue at h
    by_cases hemp : queue.isEmpty
    · rw [if_pos hemp] at h
      simp only [Option.some.injEq, Prod.mk.injEq] at h
      rw [← h.1] at hdq
      cases hdq
    · rw [if_neg hemp] at h
      obtain ⟨hmono, hmem⟩ :=
        naiveDequeueGo_stats fr time queue cm st [] [] d q' cm' st' h
      rcases hmem dq hdq with hin | hres
      · cases hin
      · exact hres
  · intro h dq hdq
    obtain ⟨hmono, hmem⟩ := fifoDequeueGo_stats fr time queue cm st [] d q' cm' st' h
    rcases hmem dq hdq with hin | hres
    · cases hin
    · exact hres

/-- Admitted invocation of the C7 witness. -/
def c7dq : DequeuedInvocation := { id := 1, container_id := 0, delay := none }

/-- Witness for claim C7 on the concrete FIFO scenario of the C2 witness: the
admitted invocation has matching queueing-time and cold-start samples in the
final stats trace. -/
theorem c7_witness :
    ∃ item ∈ ([c2item1, c2item2] : List InvokerQueueItem),
      c7dq.id = item.invocation_id ∧
      StatsCall.queueing item.app_id item.func_id ((0 : Rat) - item.time) ∈ c2stAfter ∧
      (c7dq.delay = none →
        StatsCall.coldStart item.app_id item.func_id ((0 : Rat) - item.time) ∈ c2stAfter) ∧
      (∀ dl, c7dq.delay = some dl →
        StatsCall.coldStart item.app_id item.func_id ((0 : Rat) - item.time + dl) ∈
          c2stAfter) :=
  (c7_dequeue_stats_accounting [c2app] 0 [c2item1, c2item2] c2cm [] [c7dq] [c2item2]
      c2cmAfter c2stAfter).2 rfl c7dq (List.mem_singleton.mpr rfl)

/-- Admission of one queue item, written from the spec accounting steps
(section 4.D): queueing-time sample; for Warm, the wasted-resources sample of
an Idle container and its transition to Running with the invocation attached;
the cold-start sample (plus the delay when Cold); for Cold, the container
reservation. -/
def specAdmitItem (time : Rat) (item : InvokerQueueItem) (dec : InvokerDecision)
    (cm : ContainerManager) (st : Stats) :
    Option (DequeuedInvocation × ContainerManager × Stats) :=
  match dec with
  | InvokerDecision.Warm id =>
      match getContainer cm id with
      | none => none
      | some c =>
          let st₁ := st ++ [StatsCall.queueing item.app_id item.func_id (time - item.time)]
          let st₂ :=
            if c.status = ContainerStatus.idle then
              st₁ ++ [StatsCall.wasted (time - c.last_change) c.resources]
            else
              st₁
          let cm₂ := updateContainer cm id fun c =>
            { c with
              last_change := time
              status := ContainerStatus.running
              invocations := c.invocations ++ [item.invocation_id] }
          let st₃ := st₂ ++ [StatsCall.coldStart item.app_id item.func_id (time - item.time)]
          some ({ id := item.invocation_id, container_id := id, delay := none }, cm₂, st₃)
  | InvokerDecision.Cold id delay =>
      let st₁ := st ++ [StatsCall.queueing item.app_id item.func_id (time - item.time)]
      let st₂ := st₁ ++
        [StatsCall.coldStart item.app_id item.func_id (time - item.time + delay)]
      some ({ id := item.invocation_id, container_id := id, delay := some delay },
        reserveContainer cm id item.invocation_id, st₂)
  | _ => none

/-- Naive dequeue written from the spec words: iterate over the whole queue
once in order; an item whose `try_invoke` decision is Rejected is retained in
place, any other is admitted, removed, and appended to the dequeued list. -/
def specNaiveDequeue (fr : FunctionRegistry) (time : Rat) :
    List InvokerQueueItem → ContainerManager → Stats →
    Option (List DequeuedInvocation × List InvokerQueueItem × ContainerManager × Stats)
  | [], cm, st => some ([], [], cm, st)
  | item :: rest, cm, st =>
      match getApp fr item.app_id with
      | none => none
      | some app =>
          match tryInvoke app cm time with
          | none => none
          | some (dec, cm₁) =>
              if dec = InvokerDecision.Rejected then
                (specNaiveDequeue fr time rest cm₁ st).map fun r =>
                  (r.1, item :: r.2.1, r.2.2)
              else
                match specAdmitItem time item dec cm₁ st with
                | none => none
                | some (entry, cm₂, st₂) =>
                    (specNaiveDequeue fr time rest cm₂ st₂).map fun r =>
                      (entry :: r.1, r.2)

/-- The accumulator loop of the source naive dequeue computes the spec-side
recursion, with the accumulators appended in front. -/
theorem naiveDequeueGo_eq_spec (fr : FunctionRegistry) (time : Rat) :
    ∀ (queue : List InvokerQueueItem) (cm : ContainerManager) (st : Stats)
      (deq : List DequeuedInvocation) (newQ : List InvokerQueueItem),
      naiveDequeueGo fr time queue cm st deq newQ =
        (specNaiveDequeue fr time queue cm st).map fun r =>
          (deq ++ r.1, newQ ++ r.2.1, r.2.2) := by
  intro queue
  induction queue with
  | nil =>
      intro cm st deq newQ
      simp [naiveDequeueGo, specNaiveDequeue]
  | cons item rest ih =>
      intro cm st deq newQ
      simp only [naiveDequeueGo, specNaiveDequeue]
      cases happ : getApp fr item.app_id with
      | none => rfl
      | some app =>
          dsimp only
          cases hti : tryInvoke app cm time with
          | none => rfl
          | some p =>
              obtain ⟨dec, cm₁⟩ := p
              cases dec with
              | Warm id =>
                  dsimp only
                  rw [if_neg (by simp)]
                  simp only [specAdmitItem]
                  cases hg : getContainer cm₁ id with
                  | none => rfl
                  | some c =>
                      dsimp only
                      rw [ih]
                      cases hspec : specNaiveDequeue fr time rest
                          (updateContainer cm₁ id fun c =>
                            { c with
                              last_change := time
                              status := ContainerStatus.running
                              invocations := c.invocations ++ [item.invocation_id] })
                          ((if c.status = ContainerStatus.idle then
                              (st ++ [StatsCall.queueing item.app_id item.func_id
                                (time - item.time)]) ++
                                [StatsCall.wasted (time - c.last_change) c.resources]
                            else
                              st ++ [StatsCall.queueing item.app_id item.func_id
                                (time - item.time)]) ++
                            [StatsCall.coldStart item.app_id item.func_id
                              (time - item.time)]) with
                      | none => rfl
                      | some r => simp
              | Cold id delay =>
                  dsimp only
                  rw [if_neg (by simp)]
                  simp only [specAdmitItem]
                  rw [ih]
                  cases hspec : specNaiveDequeue fr time rest
                      (reserveContainer cm₁ id item.invocation_id)
                      ((st ++ [StatsCall.queueing item.app_id item.func_id
                        (time - item.time)]) ++
                        [StatsCall.coldStart item.app_id item.func_id
                          (time - item.time + delay)]) with
                  | none => rfl
                  | some r => simp
              | Rejected =>
                  dsimp only
                  rw [if_pos rfl, ih]
                  cases hspec : specNaiveDequeue fr time rest cm₁ st with
                  | none => rfl
                  | some r => simp
              | Queued =>
                  dsimp only
                  rw [if_neg (by simp)]
                  simp [specAdmitItem]

/-- Claim C3: the source naive dequeue equals the spec-side recursion — a
single call inspects every queued item exactly once in order, retains the
Rejected ones in their original relative order, and admits every other item,
removing it from the queue and appending it to the returned list in queue
order. -/
theorem c3_naive_dequeue_refines_spec (fr : FunctionRegistry) (time : Rat)
    (queue : List InvokerQueueItem) (cm : ContainerManager) (st : Stats) :
    naiveDequeue fr time queue cm st = specNaiveDequeue fr time queue cm st := by
  unfold naiveDequeue
  by_cases hemp : queue.isEmpty
  · have hq : queue = [] := List.isEmpty_iff.mp hemp
    subst hq
    rw [if_pos hemp]
    rfl
  · rw [if_neg hemp, naiveDequeueGo_eq_spec]
    cases hspec : specNaiveDequeue fr time queue cm st with
    | none => rfl
    | some r => simp
